import Mathlib

/-!
Verification of the fixed-pool first-fit allocator in src/main.cpp.

The pool is modelled as the half-open address range [0, pool_size) of the
byte array m_memory_pool; a pointer into the pool is its offset from the
pool start, and the C++ nullptr is Option.none.  A BlockHeader written in
the pool is modelled as a record carrying its own address (implicit in the
C++ as the header's location) together with the size and is_free fields of
the struct.  The intrusive doubly linked free list (the next/prev fields
threaded through the headers plus m_free_list_head) is modelled as the list
of the addresses of the free blocks in link order, head first; the helpers
removeFromFreeList and addToFreeList of the source become List.erase and
cons, which is exactly their effect on a well formed doubly linked list.
-/

namespace PoolAlloc

/-- Models sizeof(BlockHeader) for the LP64 build the program targets:
size_t (8) + bool padded (8) + two pointers (16). -/
def headerSize : Nat := 32

/-- The struct BlockHeader of src/main.cpp (lines 15-20), together with the
address at which the header sits in the pool (in the C++ this is the header
pointer itself).  The next/prev fields live in the free-list model. -/
structure BlockHeader where
  addr : Nat
  size : Nat
  is_free : Bool
deriving DecidableEq, Repr

/-- The Allocator state (src/main.cpp lines 64-67): pool_size is
m_pool_size, blocks is the physical sequence of headers written in the
pool in address order, free_list is the address chain hanging off
m_free_list_head. -/
structure Allocator where
  pool_size : Nat
  blocks : List BlockHeader
  free_list : List Nat
deriving DecidableEq, Repr

/-- Reading the header stored at address a (dereferencing a BlockHeader
pointer in the C++). -/
def lookupBlock (bs : List BlockHeader) (a : Nat) : Option BlockHeader :=
  bs.find? (fun b => b.addr == a)

/-- The size field of the header at address a (0 if no header is there,
which in the C++ would be an out-of-contract read). -/
def sizeAt (st : Allocator) (a : Nat) : Nat :=
  match lookupBlock st.blocks a with
  | some b => b.size
  | none => 0

/-- The is_free field of the header at address a. -/
def isFreeAtAddr (st : Allocator) (a : Nat) : Bool :=
  match lookupBlock st.blocks a with
  | some b => b.is_free
  | none => false

/-- Allocator::removeFromFreeList (src/main.cpp lines 78-88): unlinking a
node from the doubly linked list removes its one occurrence. -/
def removeFromFreeList (fl : List Nat) (a : Nat) : List Nat :=
  fl.erase a

/-- Allocator::addToFreeList (src/main.cpp lines 90-98): push the block at
the front of the list (the is_free := true write is in markFreeAt). -/
def addToFreeList (fl : List Nat) (a : Nat) : List Nat :=
  a :: fl

/-- The header writes of the split branch of Allocator::allocate
(src/main.cpp lines 118-138): the found block at address a is cut into an
allocated low part of size total and a new free block holding the rest. -/
def splitBlockAt (a total : Nat) : List BlockHeader → List BlockHeader
  | [] => []
  | b :: rest =>
    if b.addr = a then
      ⟨a, total, false⟩ :: ⟨a + total, b.size - total, true⟩ :: rest
    else
      b :: splitBlockAt a total rest

/-- The write current->is_free = false (src/main.cpp line 145). -/
def markAllocatedAt (a : Nat) : List BlockHeader → List BlockHeader
  | [] => []
  | b :: rest =>
    if b.addr = a then ⟨b.addr, b.size, false⟩ :: rest
    else b :: markAllocatedAt a rest

/-- The write block->is_free = true done by addToFreeList
(src/main.cpp line 91). -/
def markFreeAt (a : Nat) : List BlockHeader → List BlockHeader
  | [] => []
  | b :: rest =>
    if b.addr = a then ⟨b.addr, b.size, true⟩ :: rest
    else b :: markFreeAt a rest

/-- The write block->size += extra of the coalescing steps
(src/main.cpp lines 172 and 182). -/
def growBlockAt (a extra : Nat) : List BlockHeader → List BlockHeader
  | [] => []
  | b :: rest =>
    if b.addr = a then ⟨b.addr, b.size + extra, b.is_free⟩ :: rest
    else b :: growBlockAt a extra rest

/-- Absorbing the block at address a into a coalesced neighbor: its header
ceases to be a block boundary (src/main.cpp lines 172-173 and 182-183). -/
def dropBlockAt (a : Nat) : List BlockHeader → List BlockHeader
  | [] => []
  | b :: rest =>
    if b.addr = a then rest
    else b :: dropBlockAt a rest

/-- The constructor Allocator::Allocator (src/main.cpp lines 31-48): a pool
smaller than one header yields the inert allocator (null pool, null head);
otherwise the whole pool is one free block and the single list node. -/
def mkAllocator (pool_size : Nat) : Allocator :=
  if pool_size < headerSize then
    { pool_size := pool_size, blocks := [], free_list := [] }
  else
    { pool_size := pool_size
      blocks := [⟨0, pool_size, true⟩]
      free_list := [0] }

/-- The while loop of Allocator::allocate (src/main.cpp lines 111-150)
walking the free list from m_free_list_head.  Nothing is mutated before a
candidate is committed, so the state threaded through the search is the
original one.  The split guard is line 118: current->size strictly greater
than total + sizeof(BlockHeader); in the split branch the new free block
replaces the found one in place (same next/prev neighbors, lines 129-138),
in the other branch the found block is unlinked (line 142). -/
def allocLoop (st : Allocator) (total : Nat) : List Nat → Option Nat × Allocator
  | [] => (none, st)
  | a :: rest =>
    if total ≤ sizeAt st a then
      if total + headerSize < sizeAt st a then
        (some (a + headerSize),
         { st with
             blocks := splitBlockAt a total st.blocks
             free_list := st.free_list.map (fun x => if x = a then a + total else x) })
      else
        (some (a + headerSize),
         { st with
             blocks := markAllocatedAt a st.blocks
             free_list := removeFromFreeList st.free_list a })
    else
      allocLoop st total rest

/-- Allocator::allocate (src/main.cpp lines 100-155).  A zero request
returns nullptr at once (lines 101-103); otherwise the loop searches for
total_size_needed = size + sizeof(BlockHeader) bytes and the returned
pointer is the byte following the chosen header (line 147). -/
def allocate (st : Allocator) (size : Nat) : Option Nat × Allocator :=
  if size = 0 then (none, st)
  else allocLoop st (size + headerSize) st.free_list

/-- The right-coalesce step of Allocator::deallocate (src/main.cpp lines
167-174): the physically next header is at a + size; only when that address
is strictly inside the pool is its is_free flag read, and a free right
neighbor is merged in (size += next.size) and unlinked. -/
def rightCoalesce (st : Allocator) (a : Nat) : Allocator :=
  if a + sizeAt st a < st.pool_size ∧ isFreeAtAddr st (a + sizeAt st a) = true then
    { st with
        blocks := dropBlockAt (a + sizeAt st a)
          (growBlockAt a (sizeAt st (a + sizeAt st a)) st.blocks)
        free_list := removeFromFreeList st.free_list (a + sizeAt st a) }
  else st

/-- Allocator::deallocate (src/main.cpp lines 157-192).  nullptr is a no-op
(lines 158-160); the header is recovered at ptr - sizeof(BlockHeader)
(line 163); after the right-coalesce the free list is scanned for a block
ending exactly at this one (lines 179-188) and merged into if found,
otherwise the block is pushed at the head of the list (line 191). -/
def deallocate (st : Allocator) (p : Option Nat) : Allocator :=
  match p with
  | none => st
  | some ptr =>
    let a := ptr - headerSize
    let st1 := rightCoalesce st a
    match st1.free_list.find? (fun c => c + sizeAt st1 c == a) with
    | some c =>
      { st1 with blocks := dropBlockAt a (growBlockAt c (sizeAt st1 a) st1.blocks) }
    | none =>
      { st1 with
          blocks := markFreeAt a st1.blocks
          free_list := addToFreeList st1.free_list a }

/-- Total bytes held by the free list, headers included. -/
def totalFreeBytes (st : Allocator) : Nat :=
  (st.free_list.map (fun a => sizeAt st a)).sum

/-! The driver scenario of src/main.cpp lines 216-249, as concrete states. -/

/-- The 1 KB pool of the demonstration driver. -/
def demoSt0 : Allocator := mkAllocator 1024

/-- allocator.allocate(100), yielding p1. -/
def demoR1 : Option Nat × Allocator := allocate demoSt0 100

/-- allocator.allocate(200), yielding p2. -/
def demoR2 : Option Nat × Allocator := allocate demoR1.2 200

/-- allocator.allocate(50), yielding p3. -/
def demoR3 : Option Nat × Allocator := allocate demoR2.2 50

/-- State after allocator.deallocate(p2). -/
def demoSt4 : Allocator := deallocate demoR3.2 demoR2.1

/-- State after then deallocating p1. -/
def demoSt5 : Allocator := deallocate demoSt4 demoR1.1

/-- State after then deallocating p3. -/
def demoSt6 : Allocator := deallocate demoSt5 demoR3.1

/-! The data-model invariants of the design (spec sections 3 and 8):
the physical blocks tile the pool, the free list is exactly the set of
free blocks, and no two physically adjacent blocks are both free. -/

/-- The physical layout claim for a header sequence: each header sits
exactly where the previous block ends, every block is at least one header
large, and the last block ends exactly at the given stop address. -/
def tilesFrom : Nat → Nat → List BlockHeader → Prop
  | a, stop, [] => a = stop
  | a, stop, b :: rest =>
    b.addr = a ∧ headerSize ≤ b.size ∧ tilesFrom (a + b.size) stop rest

instance instDecidableTilesFrom :
    (a stop : Nat) → (bs : List BlockHeader) → Decidable (tilesFrom a stop bs)
  | a, stop, [] => inferInstanceAs (Decidable (a = stop))
  | a, stop, b :: rest =>
    haveI := instDecidableTilesFrom (a + b.size) stop rest
    inferInstanceAs (Decidable (_ ∧ _ ∧ _))

theorem tilesFrom_nil {a stop : Nat} : tilesFrom a stop [] ↔ a = stop :=
  Iff.rfl

theorem tilesFrom_cons {a stop : Nat} {b : BlockHeader}
    {rest : List BlockHeader} :
    tilesFrom a stop (b :: rest) ↔
      b.addr = a ∧ headerSize ≤ b.size ∧ tilesFrom (a + b.size) stop rest :=
  Iff.rfl

theorem tilesFrom_le :
    ∀ (bs : List BlockHeader) (a stop : Nat), tilesFrom a stop bs → a ≤ stop
  | [], _, _, h => Nat.le_of_eq h
  | b :: rest, a, stop, h =>
    le_trans (Nat.le_add_right a b.size)
      (tilesFrom_le rest (a + b.size) stop h.2.2)

theorem tilesFrom_bounds :
    ∀ (bs : List BlockHeader) (a stop : Nat), tilesFrom a stop bs →
      ∀ b ∈ bs, a ≤ b.addr ∧ b.addr + b.size ≤ stop ∧ headerSize ≤ b.size
  | [], _, _, _, b, hb => absurd hb (List.not_mem_nil b)
  | c :: rest, a, stop, h, b, hb => by
    rcases List.mem_cons.mp hb with hb | hb
    · subst hb
      exact ⟨Nat.le_of_eq h.1.symm,
        h.1 ▸ tilesFrom_le rest (a + b.size) stop h.2.2, h.2.1⟩
    · have ih := tilesFrom_bounds rest (a + c.size) stop h.2.2 b hb
      exact ⟨le_trans (Nat.le_add_right a c.size) ih.1, ih.2.1, ih.2.2⟩

theorem tilesFrom_append :
    ∀ (u v : List BlockHeader) (a stop : Nat),
      tilesFrom a stop (u ++ v) ↔ ∃ m, tilesFrom a m u ∧ tilesFrom m stop v
  | [], v, a, stop => by
    constructor
    · intro h
      exact ⟨a, rfl, h⟩
    · rintro ⟨m, hm, hv⟩
      exact tilesFrom_nil.mp hm ▸ hv
  | b :: u, v, a, stop => by
    rw [List.cons_append, tilesFrom_cons, tilesFrom_append u v (a + b.size) stop]
    constructor
    · rintro ⟨h1, h2, m, hm, hv⟩
      exact ⟨m, ⟨h1, h2, hm⟩, hv⟩
    · rintro ⟨m, ⟨h1, h2, hm⟩, hv⟩
      exact ⟨h1, h2, m, hm, hv⟩

theorem tilesFrom_self_nil :
    ∀ (bs : List BlockHeader) (m : Nat), tilesFrom m m bs → bs = []
  | [], _, _ => rfl
  | b :: rest, m, h => by
    exfalso
    have h1 : m + b.size ≤ m := tilesFrom_le rest (m + b.size) m h.2.2
    have h2 : headerSize ≤ b.size := h.2.1
    have : (0 : Nat) < headerSize := by decide
    omega

theorem tilesFrom_decomp :
    ∀ (bs : List BlockHeader) (a stop : Nat) (b : BlockHeader),
      tilesFrom a stop bs → b ∈ bs →
      ∃ u v, bs = u ++ b :: v ∧ tilesFrom a b.addr u ∧
        tilesFrom (b.addr + b.size) stop v
  | [], _, _, b, _, hb => absurd hb (List.not_mem_nil b)
  | c :: rest, a, stop, b, h, hb => by
    rcases List.mem_cons.mp hb with hb | hb
    · subst hb
      exact ⟨[], rest, rfl, tilesFrom_nil.mpr h.1.symm, by
        rw [h.1]
        exact h.2.2⟩
    · obtain ⟨u, v, hrest, hu, hv⟩ :=
        tilesFrom_decomp rest (a + c.size) stop b h.2.2 hb
      exact ⟨c :: u, v, by rw [hrest, List.cons_append],
        tilesFrom_cons.mpr ⟨h.1, h.2.1, hu⟩, hv⟩

theorem addr_lt_of_mem_left {u : List BlockHeader} {a m : Nat}
    (hT : tilesFrom a m u) {x : BlockHeader} (hx : x ∈ u) : x.addr < m := by
  have h := tilesFrom_bounds u a m hT x hx
  have : (0 : Nat) < headerSize := by decide
  omega

theorem addr_ge_of_mem_suffix {v : List BlockHeader} {m stop : Nat}
    (hT : tilesFrom m stop v) {y : BlockHeader} (hy : y ∈ v) : m ≤ y.addr :=
  (tilesFrom_bounds v m stop hT y hy).1

/-! Reading a header of a tiled layout by its address. -/

theorem lookupBlock_append {u v : List BlockHeader} {b : BlockHeader}
    (hu : ∀ x ∈ u, x.addr ≠ b.addr) :
    lookupBlock (u ++ b :: v) b.addr = some b := by
  induction u with
  | nil =>
    simp [lookupBlock, List.find?]
  | cons x u ih =>
    have hx : (x.addr == b.addr) = false :=
      beq_eq_false_iff_ne.mpr (hu x (List.mem_cons_self x u))
    simp only [List.cons_append, lookupBlock, List.find?, hx]
    exact ih (fun y hy => hu y (List.mem_cons_of_mem x hy))

theorem lookupBlock_of_tiled {bs : List BlockHeader} {a stop : Nat}
    (hT : tilesFrom a stop bs) {b : BlockHeader} (hb : b ∈ bs) :
    lookupBlock bs b.addr = some b := by
  obtain ⟨u, v, hbs, hu, hv⟩ := tilesFrom_decomp bs a stop b hT hb
  subst hbs
  exact lookupBlock_append
    (fun x hx => Nat.ne_of_lt (addr_lt_of_mem_left hu hx))

theorem sizeAt_of_tiled {st : Allocator}
    (hT : tilesFrom 0 st.pool_size st.blocks) {b : BlockHeader}
    (hb : b ∈ st.blocks) : sizeAt st b.addr = b.size := by
  unfold sizeAt
  rw [lookupBlock_of_tiled hT hb]

theorem isFreeAtAddr_of_tiled {st : Allocator}
    (hT : tilesFrom 0 st.pool_size st.blocks) {b : BlockHeader}
    (hb : b ∈ st.blocks) : isFreeAtAddr st b.addr = b.is_free := by
  unfold isFreeAtAddr
  rw [lookupBlock_of_tiled hT hb]

theorem tiled_addr_inj {bs : List BlockHeader} {a stop : Nat}
    (hT : tilesFrom a stop bs) {b c : BlockHeader}
    (hb : b ∈ bs) (hc : c ∈ bs) (h : b.addr = c.addr) : b = c := by
  have h1 := lookupBlock_of_tiled hT hb
  have h2 := lookupBlock_of_tiled hT hc
  rw [h] at h1
  rw [h1] at h2
  exact Option.some_injective _ h2

/-! Evaluating the header-write helpers on a layout decomposed at the
written address. -/

theorem splitBlockAt_eval {u v : List BlockHeader} {b : BlockHeader}
    {a total : Nat} (hu : ∀ x ∈ u, x.addr ≠ a) (hb : b.addr = a) :
    splitBlockAt a total (u ++ b :: v) =
      u ++ ⟨a, total, false⟩ :: ⟨a + total, b.size - total, true⟩ :: v := by
  induction u with
  | nil => simp [splitBlockAt, hb]
  | cons x u ih =>
    simp only [List.cons_append, splitBlockAt,
      if_neg (hu x (List.mem_cons_self x u))]
    exact congrArg (List.cons x) (ih (fun y hy => hu y (List.mem_cons_of_mem x hy)))

theorem markAllocatedAt_eval {u v : List BlockHeader} {b : BlockHeader}
    {a : Nat} (hu : ∀ x ∈ u, x.addr ≠ a) (hb : b.addr = a) :
    markAllocatedAt a (u ++ b :: v) = u ++ ⟨b.addr, b.size, false⟩ :: v := by
  induction u with
  | nil => simp [markAllocatedAt, hb]
  | cons x u ih =>
    simp only [List.cons_append, markAllocatedAt,
      if_neg (hu x (List.mem_cons_self x u))]
    exact congrArg (List.cons x) (ih (fun y hy => hu y (List.mem_cons_of_mem x hy)))

theorem markFreeAt_eval {u v : List BlockHeader} {b : BlockHeader}
    {a : Nat} (hu : ∀ x ∈ u, x.addr ≠ a) (hb : b.addr = a) :
    markFreeAt a (u ++ b :: v) = u ++ ⟨b.addr, b.size, true⟩ :: v := by
  induction u with
  | nil => simp [markFreeAt, hb]
  | cons x u ih =>
    simp only [List.cons_append, markFreeAt,
      if_neg (hu x (List.mem_cons_self x u))]
    exact congrArg (List.cons x) (ih (fun y hy => hu y (List.mem_cons_of_mem x hy)))

theorem growBlockAt_eval {u v : List BlockHeader} {b : BlockHeader}
    {a extra : Nat} (hu : ∀ x ∈ u, x.addr ≠ a) (hb : b.addr = a) :
    growBlockAt a extra (u ++ b :: v) =
      u ++ ⟨b.addr, b.size + extra, b.is_free⟩ :: v := by
  induction u with
  | nil => simp [growBlockAt, hb]
  | cons x u ih =>
    simp only [List.cons_append, growBlockAt,
      if_neg (hu x (List.mem_cons_self x u))]
    exact congrArg (List.cons x) (ih (fun y hy => hu y (List.mem_cons_of_mem x hy)))

theorem dropBlockAt_eval {u v : List BlockHeader} {b : BlockHeader}
    {a : Nat} (hu : ∀ x ∈ u, x.addr ≠ a) (hb : b.addr = a) :
    dropBlockAt a (u ++ b :: v) = u ++ v := by
  induction u with
  | nil => simp [dropBlockAt, hb]
  | cons x u ih =>
    simp only [List.cons_append, dropBlockAt,
      if_neg (hu x (List.mem_cons_self x u))]
    exact congrArg (List.cons x) (ih (fun y hy => hu y (List.mem_cons_of_mem x hy)))

theorem map_replace_eval {u v : List Nat} {a c : Nat}
    (hu : ∀ x ∈ u, x ≠ a) (hv : ∀ x ∈ v, x ≠ a) :
    (u ++ a :: v).map (fun x => if x = a then c else x) = u ++ c :: v := by
  induction u with
  | nil =>
    simp only [List.nil_append, List.map_cons, if_pos rfl]
    congr 1
    induction v with
    | nil => rfl
    | cons y v ihv =>
      simp only [List.map_cons, if_neg (hv y (List.mem_cons_self y v))]
      rw [ihv (fun z hz => hv z (List.mem_cons_of_mem y hz))]
  | cons x u ih =>
    simp only [List.cons_append, List.map_cons,
      if_neg (hu x (List.mem_cons_self x u))]
    exact congrArg (List.cons x) (ih (fun y hy => hu y (List.mem_cons_of_mem x hy)))

/-! Well-formedness, the adjacency invariant, valid pointers and the
states reachable through the public interface. -/

/-- Consistency of the state: blocks tile the pool exactly (partition
invariant, every size at least one header), the free list has no repeats,
and it holds exactly the addresses of the free blocks. -/
def WF (st : Allocator) : Prop :=
  tilesFrom 0 st.pool_size st.blocks ∧
  st.free_list.Nodup ∧
  (∀ a ∈ st.free_list, ∃ b ∈ st.blocks, b.addr = a ∧ b.is_free = true) ∧
  (∀ b ∈ st.blocks, b.is_free = true → b.addr ∈ st.free_list)

/-- Two physically consecutive blocks are never both free. -/
def adjacentOk (b c : BlockHeader) : Prop :=
  b.is_free = false ∨ c.is_free = false

instance : DecidableRel adjacentOk := fun _ _ =>
  inferInstanceAs (Decidable (_ ∨ _))

/-- The no-adjacent-free invariant over the physical block sequence. -/
def noAdjacentFree (bs : List BlockHeader) : Prop :=
  List.Chain' adjacentOk bs

/-- Executable form of the no-adjacent-free check. -/
def noAdjacentFreeB : List BlockHeader → Bool
  | b :: c :: rest => (!(b.is_free && c.is_free)) && noAdjacentFreeB (c :: rest)
  | _ => true

theorem noAdjacentFreeB_iff :
    ∀ bs : List BlockHeader, noAdjacentFreeB bs = true ↔ noAdjacentFree bs
  | [] => by simp [noAdjacentFree, noAdjacentFreeB]
  | [b] => by simp [noAdjacentFree, noAdjacentFreeB]
  | b :: c :: rest => by
    rw [noAdjacentFree, List.chain'_cons]
    have ih := noAdjacentFreeB_iff (c :: rest)
    rw [noAdjacentFree] at ih
    rw [show noAdjacentFreeB (b :: c :: rest) =
      ((!(b.is_free && c.is_free)) && noAdjacentFreeB (c :: rest)) from rfl]
    rw [Bool.and_eq_true, ih]
    cases hb : b.is_free <;> cases hc : c.is_free <;>
      simp [adjacentOk, hb, hc]

/-- The full state invariant maintained by the allocator. -/
def Inv (st : Allocator) : Prop :=
  WF st ∧ noAdjacentFree st.blocks

/-- A pointer previously handed out by allocate and still allocated: the
byte after the header of some currently allocated block. -/
def validPtr (st : Allocator) (p : Nat) : Prop :=
  ∃ b ∈ st.blocks, b.is_free = false ∧ p = b.addr + headerSize

instance (st : Allocator) (p : Nat) : Decidable (validPtr st p) :=
  inferInstanceAs
    (Decidable (∃ b ∈ st.blocks, b.is_free = false ∧ p = b.addr + headerSize))

instance (st : Allocator) : Decidable (WF st) :=
  inferInstanceAs (Decidable (_ ∧ _ ∧ _ ∧ _))

/-- The states produced by a successful construction followed by any
sequence of allocate calls and deallocate calls on valid pointers. -/
inductive Reachable : Allocator → Prop where
  | construct (pool_size : Nat) (h : headerSize ≤ pool_size) :
      Reachable (mkAllocator pool_size)
  | alloc {st : Allocator} (n : Nat) (h : Reachable st) :
      Reachable (allocate st n).2
  | dealloc {st : Allocator} {p : Nat} (h : Reachable st)
      (hv : validPtr st p) : Reachable (deallocate st (some p))

/-! Preservation of the invariant by the public operations. -/

theorem headerSize_pos : 0 < headerSize := by decide

theorem mem_addr_outside {u v : List BlockHeader} {b : BlockHeader}
    {stop : Nat} (hu : tilesFrom 0 b.addr u)
    (hv : tilesFrom (b.addr + b.size) stop v) {c : BlockHeader}
    (hc : c ∈ u ++ b :: v) :
    c.addr ≤ b.addr ∨ b.addr + b.size ≤ c.addr := by
  rcases List.mem_append.mp hc with hc | hc
  · exact Or.inl (Nat.le_of_lt (addr_lt_of_mem_left hu hc))
  · rcases List.mem_cons.mp hc with hc | hc
    · subst hc
      exact Or.inl (le_refl _)
    · exact Or.inr (addr_ge_of_mem_suffix hv hc)

theorem mem_middle_of_ne {p q : List Nat} {x a : Nat}
    (hx : x ∈ p ++ a :: q) (hne : x ≠ a) : x ∈ p ++ q := by
  rcases List.mem_append.mp hx with h | h
  · exact List.mem_append_left _ h
  · rcases List.mem_cons.mp h with h | h
    · exact absurd h hne
    · exact List.mem_append_right _ h

theorem mem_middle_subset {p q : List Nat} {x a : Nat}
    (hx : x ∈ p ++ q) : x ∈ p ++ a :: q := by
  rcases List.mem_append.mp hx with h | h
  · exact List.mem_append_left _ h
  · exact List.mem_append_right _ (List.mem_cons_of_mem a h)

theorem mkAllocator_inv (pool_size : Nat) (h : headerSize ≤ pool_size) :
    Inv (mkAllocator pool_size) := by
  have hlt : ¬ pool_size < headerSize := Nat.not_lt.mpr h
  simp only [mkAllocator, if_neg hlt]
  refine ⟨⟨?_, ?_, ?_, ?_⟩, ?_⟩
  · exact ⟨rfl, h, by simp [tilesFrom]⟩
  · simp
  · intro a ha
    simp only [List.mem_singleton] at ha
    exact ⟨⟨0, pool_size, true⟩, by simp, ha ▸ rfl, rfl⟩
  · intro b hb _
    simp only [List.mem_singleton] at hb
    simp [hb]
  · exact List.chain'_singleton _

theorem allocLoop_cases (st : Allocator) (total : Nat) (l : List Nat) :
    allocLoop st total l = (none, st) ∨
    ∃ a ∈ l, total ≤ sizeAt st a ∧
      ((total + headerSize < sizeAt st a ∧
        allocLoop st total l = (some (a + headerSize),
          { st with
              blocks := splitBlockAt a total st.blocks
              free_list :=
                st.free_list.map (fun x => if x = a then a + total else x) })) ∨
       (sizeAt st a ≤ total + headerSize ∧
        allocLoop st total l = (some (a + headerSize),
          { st with
              blocks := markAllocatedAt a st.blocks
              free_list := removeFromFreeList st.free_list a }))) := by
  induction l with
  | nil => exact Or.inl rfl
  | cons a rest ih =>
    by_cases h1 : total ≤ sizeAt st a
    · right
      refine ⟨a, List.mem_cons_self a rest, h1, ?_⟩
      by_cases h2 : total + headerSize < sizeAt st a
      · exact Or.inl ⟨h2, by simp only [allocLoop, if_pos h1, if_pos h2]⟩
      · exact Or.inr ⟨Nat.not_lt.mp h2,
          by simp only [allocLoop, if_pos h1, if_neg h2]⟩
    · have heq : allocLoop st total (a :: rest) = allocLoop st total rest := by
        simp only [allocLoop, if_neg h1]
      rw [heq]
      rcases ih with h | ⟨a1, ha1, h3, h4⟩
      · exact Or.inl h
      · exact Or.inr ⟨a1, List.mem_cons_of_mem a ha1, h3, h4⟩

/-- The state after a split commit (src/main.cpp lines 118-138) satisfies
the invariant again. -/
theorem split_state_inv (st : Allocator) (hI : Inv st) {a total : Nat}
    (hTot : headerSize ≤ total) (ha : a ∈ st.free_list)
    (hsplit : total + headerSize < sizeAt st a) :
    Inv { st with
            blocks := splitBlockAt a total st.blocks
            free_list :=
              st.free_list.map (fun x => if x = a then a + total else x) } := by
  have hH : headerSize = 32 := rfl
  obtain ⟨⟨hT, hND, hMF, hFM⟩, hAdj⟩ := hI
  obtain ⟨b, hbmem, hbaddr, hbfree⟩ := hMF a ha
  subst hbaddr
  rw [sizeAt_of_tiled hT hbmem] at hsplit
  obtain ⟨u, v, hbs, hu, hv⟩ :=
    tilesFrom_decomp st.blocks 0 st.pool_size b hT hbmem
  have hune : ∀ x ∈ u, x.addr ≠ b.addr := fun x hx =>
    Nat.ne_of_lt (addr_lt_of_mem_left hu hx)
  have hblocks : splitBlockAt b.addr total st.blocks =
      u ++ ⟨b.addr, total, false⟩ ::
        ⟨b.addr + total, b.size - total, true⟩ :: v := by
    rw [hbs]
    exact splitBlockAt_eval hune rfl
  obtain ⟨p, q, hfl⟩ := List.append_of_mem ha
  have hndmid := List.nodup_cons.mp (List.nodup_middle.mp (hfl ▸ hND))
  have hpne : ∀ x ∈ p, x ≠ b.addr := fun x hx h =>
    hndmid.1 (h ▸ List.mem_append_left q hx)
  have hqne : ∀ x ∈ q, x ≠ b.addr := fun x hx h =>
    hndmid.1 (h ▸ List.mem_append_right p hx)
  have hflmap :
      st.free_list.map (fun x => if x = b.addr then b.addr + total else x) =
        p ++ (b.addr + total) :: q := by
    rw [hfl]
    exact map_replace_eval hpne hqne
  have hsub : ∀ x ∈ p ++ q, x ∈ st.free_list := by
    intro x hx
    rw [hfl]
    exact mem_middle_subset hx
  have hnotaddr : ∀ x ∈ st.free_list, x ≠ b.addr + total := by
    intro x hx hxeq
    obtain ⟨c, hcmem, hcaddr, -⟩ := hMF x hx
    have hout := mem_addr_outside hu hv (hbs ▸ hcmem)
    omega
  refine ⟨⟨?_, ?_, ?_, ?_⟩, ?_⟩
  · show tilesFrom 0 st.pool_size _
    rw [hblocks]
    refine (tilesFrom_append u _ 0 st.pool_size).mpr ⟨b.addr, hu, ?_⟩
    refine tilesFrom_cons.mpr ⟨rfl, hTot, ?_⟩
    refine tilesFrom_cons.mpr ⟨rfl, by show headerSize ≤ b.size - total; omega, ?_⟩
    show tilesFrom (b.addr + total + (b.size - total)) st.pool_size v
    have harith : b.addr + total + (b.size - total) = b.addr + b.size := by
      omega
    rw [harith]
    exact hv
  · show List.Nodup _
    rw [hflmap]
    refine List.nodup_middle.mpr (List.nodup_cons.mpr ⟨?_, hndmid.2⟩)
    intro hmem
    exact hnotaddr _ (hsub _ hmem) rfl
  · show ∀ x ∈ _, _
    rw [hflmap, hblocks]
    intro x hx
    rcases List.mem_append.mp hx with hxp | hxcons
    · obtain ⟨c, hcmem, hcaddr, hcfree⟩ := hMF x (hsub x (List.mem_append_left q hxp))
      refine ⟨c, ?_, hcaddr, hcfree⟩
      have hcne : c ≠ b := by
        intro h
        exact hpne x hxp (hcaddr ▸ h ▸ rfl)
      rcases List.mem_append.mp (hbs ▸ hcmem) with h | h
      · exact List.mem_append_left _ h
      · rcases List.mem_cons.mp h with h | h
        · exact absurd h hcne
        · exact List.mem_append_right _
            (List.mem_cons_of_mem _ (List.mem_cons_of_mem _ h))
    · rcases List.mem_cons.mp hxcons with hx1 | hxq
      · exact ⟨⟨b.addr + total, b.size - total, true⟩,
          List.mem_append_right _ (List.mem_cons_of_mem _
            (List.mem_cons_self _ _)), hx1 ▸ rfl, rfl⟩
      · obtain ⟨c, hcmem, hcaddr, hcfree⟩ :=
          hMF x (hsub x (List.mem_append_right p hxq))
        refine ⟨c, ?_, hcaddr, hcfree⟩
        have hcne : c ≠ b := by
          intro h
          exact hqne x hxq (hcaddr ▸ h ▸ rfl)
        rcases List.mem_append.mp (hbs ▸ hcmem) with h | h
        · exact List.mem_append_left _ h
        · rcases List.mem_cons.mp h with h | h
          · exact absurd h hcne
          · exact List.mem_append_right _
              (List.mem_cons_of_mem _ (List.mem_cons_of_mem _ h))
  · show ∀ c ∈ _, _
    rw [hflmap, hblocks]
    intro c hc hcfree
    rcases List.mem_append.mp hc with hcu | hcc
    · have hclt := addr_lt_of_mem_left hu hcu
      have hcin : c.addr ∈ st.free_list :=
        hFM c (by rw [hbs]; exact List.mem_append_left _ hcu) hcfree
      exact mem_middle_subset (mem_middle_of_ne (hfl ▸ hcin) (Nat.ne_of_lt hclt))
    · rcases List.mem_cons.mp hcc with hc1 | hcc
      · rw [hc1] at hcfree
        exact absurd hcfree (by simp)
      · rcases List.mem_cons.mp hcc with hc2 | hcv
        · rw [hc2]
          exact List.mem_append_right _ (List.mem_cons_self _ _)
        · have hcge := addr_ge_of_mem_suffix hv hcv
          have hcin : c.addr ∈ st.free_list :=
            hFM c (by
              rw [hbs]
              exact List.mem_append_right _ (List.mem_cons_of_mem _ hcv))
              hcfree
          have hcne : c.addr ≠ b.addr := by omega
          exact mem_middle_subset (mem_middle_of_ne (hfl ▸ hcin) hcne)
  · show noAdjacentFree _
    rw [hblocks]
    have hAdj2 := hbs ▸ hAdj
    obtain ⟨hcu, hcbv, hbd⟩ := List.chain'_append.mp hAdj2
    obtain ⟨hbhead, hcv⟩ := List.chain'_cons'.mp hcbv
    refine List.chain'_append.mpr ⟨hcu, ?_, ?_⟩
    · refine List.chain'_cons.mpr ⟨Or.inl rfl, ?_⟩
      refine List.chain'_cons'.mpr ⟨?_, hcv⟩
      intro y hy
      have := hbhead y hy
      rcases this with h | h
      · rw [hbfree] at h
        exact absurd h (by simp)
      · exact Or.inr h
    · intro x hx y hy
      simp only [List.head?_cons, Option.mem_def, Option.some.injEq] at hy
      rw [← hy]
      exact Or.inr rfl

/-- The state after an unsplit commit (src/main.cpp lines 140-145)
satisfies the invariant again. -/
theorem whole_state_inv (st : Allocator) (hI : Inv st) {a : Nat}
    (ha : a ∈ st.free_list) :
    Inv { st with
            blocks := markAllocatedAt a st.blocks
            free_list := removeFromFreeList st.free_list a } := by
  obtain ⟨⟨hT, hND, hMF, hFM⟩, hAdj⟩ := hI
  obtain ⟨b, hbmem, hbaddr, hbfree⟩ := hMF a ha
  subst hbaddr
  obtain ⟨u, v, hbs, hu, hv⟩ :=
    tilesFrom_decomp st.blocks 0 st.pool_size b hT hbmem
  have hbsize : headerSize ≤ b.size :=
    (tilesFrom_bounds st.blocks 0 st.pool_size hT b hbmem).2.2
  have hune : ∀ x ∈ u, x.addr ≠ b.addr := fun x hx =>
    Nat.ne_of_lt (addr_lt_of_mem_left hu hx)
  have hblocks : markAllocatedAt b.addr st.blocks =
      u ++ ⟨b.addr, b.size, false⟩ :: v := by
    rw [hbs]
    exact markAllocatedAt_eval hune rfl
  obtain ⟨p, q, hfl⟩ := List.append_of_mem ha
  have hndmid := List.nodup_cons.mp (List.nodup_middle.mp (hfl ▸ hND))
  have hpnotmem : b.addr ∉ p := fun h =>
    hndmid.1 (List.mem_append_left q h)
  have herase : removeFromFreeList st.free_list b.addr = p ++ q := by
    unfold removeFromFreeList
    rw [hfl, List.erase_append_right _ hpnotmem, List.erase_cons_head]
  have hsub : ∀ x ∈ p ++ q, x ∈ st.free_list := by
    intro x hx
    rw [hfl]
    exact mem_middle_subset hx
  have hne_baddr : ∀ x ∈ p ++ q, x ≠ b.addr := fun x hx h =>
    hndmid.1 (h ▸ hx)
  refine ⟨⟨?_, ?_, ?_, ?_⟩, ?_⟩
  · show tilesFrom 0 st.pool_size _
    rw [hblocks]
    exact (tilesFrom_append u _ 0 st.pool_size).mpr
      ⟨b.addr, hu, tilesFrom_cons.mpr ⟨rfl, hbsize, hv⟩⟩
  · show List.Nodup _
    rw [herase]
    exact (List.nodup_cons.mp (List.nodup_middle.mp (hfl ▸ hND))).2
  · show ∀ x ∈ _, _
    rw [herase, hblocks]
    intro x hx
    obtain ⟨c, hcmem, hcaddr, hcfree⟩ := hMF x (hsub x hx)
    refine ⟨c, ?_, hcaddr, hcfree⟩
    have hcne : c ≠ b := by
      intro h
      exact hne_baddr x hx (hcaddr ▸ h ▸ rfl)
    rcases List.mem_append.mp (hbs ▸ hcmem) with h | h
    · exact List.mem_append_left _ h
    · rcases List.mem_cons.mp h with h | h
      · exact absurd h hcne
      · exact List.mem_append_right _ (List.mem_cons_of_mem _ h)
  · show ∀ c ∈ _, _
    rw [herase, hblocks]
    intro c hc hcfree
    rcases List.mem_append.mp hc with hcu | hcc
    · have hclt := addr_lt_of_mem_left hu hcu
      have hcin : c.addr ∈ st.free_list :=
        hFM c (by rw [hbs]; exact List.mem_append_left _ hcu) hcfree
      exact mem_middle_of_ne (hfl ▸ hcin) (Nat.ne_of_lt hclt)
    · rcases List.mem_cons.mp hcc with hc1 | hcv
      · rw [hc1] at hcfree
        exact absurd hcfree (by simp)
      · have hcge := addr_ge_of_mem_suffix hv hcv
        have hH : headerSize = 32 := rfl
        have hcne : c.addr ≠ b.addr := by
          have := hbsize
          omega
        have hcin : c.addr ∈ st.free_list :=
          hFM c (by
            rw [hbs]
            exact List.mem_append_right _ (List.mem_cons_of_mem _ hcv))
            hcfree
        exact mem_middle_of_ne (hfl ▸ hcin) hcne
  · show noAdjacentFree _
    rw [hblocks]
    have hAdj2 := hbs ▸ hAdj
    obtain ⟨hcu, hcbv, hbd⟩ := List.chain'_append.mp hAdj2
    obtain ⟨hbhead, hcv⟩ := List.chain'_cons'.mp hcbv
    refine List.chain'_append.mpr ⟨hcu, ?_, ?_⟩
    · refine List.chain'_cons'.mpr ⟨?_, hcv⟩
      intro y hy
      exact Or.inl rfl
    · intro x hx y hy
      simp only [List.head?_cons, Option.mem_def, Option.some.injEq] at hy
      rw [← hy]
      exact Or.inr rfl

/-- Allocator::allocate preserves the state invariant. -/
theorem allocate_preserves_inv (st : Allocator) (hI : Inv st) (n : Nat) :
    Inv (allocate st n).2 := by
  by_cases hn : n = 0
  · simpa [allocate, hn] using hI
  · simp only [allocate, if_neg hn]
    rcases allocLoop_cases st (n + headerSize) st.free_list with
      h | ⟨a, ha, hfit, hc⟩
    · rw [h]
      exact hI
    · rcases hc with ⟨hsplit, heq⟩ | ⟨hle, heq⟩
      · rw [heq]
        exact split_state_inv st hI (Nat.le_add_left _ _) ha hsplit
      · rw [heq]
        exact whole_state_inv st hI ha

/-! Deallocate preserves the invariant: first the right-coalesce stage,
then the left-coalesce / insert stage. -/

theorem head_addr_of_tiles {w : List BlockHeader} {m stop : Nat}
    (hw : tilesFrom m stop w) : ∀ y ∈ w.head?, y.addr = m := by
  cases w with
  | nil =>
    intro y hy
    simp at hy
  | cons y w =>
    intro z hz
    simp only [List.head?_cons, Option.mem_def, Option.some.injEq] at hz
    rw [← hz]
    exact hw.1

theorem eq_dropLast_concat_of_getLast? :
    ∀ {l : List BlockHeader} {x : BlockHeader},
      x ∈ l.getLast? → l = l.dropLast ++ [x]
  | [], x, h => by simp at h
  | [a], x, h => by
    simp only [List.getLast?_singleton, Option.mem_def, Option.some.injEq] at h
    rw [h]
    rfl
  | a :: b :: t, x, h => by
    have h2 : x ∈ (b :: t).getLast? := by
      rw [← List.getLast?_cons_cons]
      exact h
    have ih := eq_dropLast_concat_of_getLast? h2
    show a :: (b :: t) = (a :: b :: t).dropLast ++ [x]
    rw [List.dropLast_cons₂, List.cons_append, ← ih]

/-- In a tiled layout, a block whose address equals the end of block B is
exactly the physical successor of B (the head of the suffix after B). -/
theorem right_neighbor_block {bs u w : List BlockHeader} {B : BlockHeader}
    {ps : Nat} (hT : tilesFrom 0 ps bs) (hbs : bs = u ++ B :: w)
    {d : BlockHeader} (hd : d ∈ bs)
    (haddr : d.addr = B.addr + B.size) :
    ∃ y, w.head? = some y ∧ d = y := by
  have hH : headerSize = 32 := rfl
  obtain ⟨m, hu, hBw⟩ := (tilesFrom_append u (B :: w) 0 ps).mp (hbs ▸ hT)
  have hBaddr : B.addr = m := hBw.1
  have hw : tilesFrom (B.addr + B.size) ps w := by
    have := hBw.2.2
    rw [hBaddr]
    exact this
  cases w with
  | nil =>
    exfalso
    have hend : B.addr + B.size = ps := hw
    have hdb := tilesFrom_bounds bs 0 ps hT d hd
    omega
  | cons y w1 =>
    have hyaddr : y.addr = B.addr + B.size := hw.1
    have hymem : y ∈ bs := by
      rw [hbs]
      exact List.mem_append_right _
        (List.mem_cons_of_mem _ (List.mem_cons_self _ _))
    have : d = y := tiled_addr_inj hT hd hymem (by rw [haddr, hyaddr])
    exact ⟨y, rfl, this⟩

/-- A free block immediately left of address m in a well formed state makes
the left-coalesce scan succeed; conversely this gives the adjacency shape
needed for the merge. -/
theorem adjacent_decomp {bs : List BlockHeader} {ps : Nat}
    (hT : tilesFrom 0 ps bs) {L b1 : BlockHeader}
    (hL : L ∈ bs) (hb1 : b1 ∈ bs) (hadj : L.addr + L.size = b1.addr) :
    ∃ uL w2, bs = uL ++ L :: b1 :: w2 ∧ tilesFrom 0 L.addr uL ∧
      tilesFrom (b1.addr + b1.size) ps w2 := by
  have hH : headerSize = 32 := rfl
  obtain ⟨uL, vL, hbs, huL, hvL⟩ := tilesFrom_decomp bs 0 ps L hT hL
  have hLsize : headerSize ≤ L.size := (tilesFrom_bounds bs 0 ps hT L hL).2.2
  have hb1vL : b1 ∈ vL := by
    rcases List.mem_append.mp (hbs ▸ hb1) with h | h
    · exfalso
      have := addr_lt_of_mem_left huL h
      omega
    · rcases List.mem_cons.mp h with h | h
      · exfalso
        rw [h] at hadj
        omega
      · exact h
  rw [hadj] at hvL
  obtain ⟨w1, w2, hvL2, hw1, hw2⟩ := tilesFrom_decomp vL b1.addr ps b1 hvL hb1vL
  have hw1nil : w1 = [] := tilesFrom_self_nil w1 b1.addr hw1
  subst hw1nil
  refine ⟨uL, w2, ?_, huL, hw2⟩
  rw [hbs, hvL2]
  rfl

/-- The final stage of deallocate when the left scan finds no free block
ending at the freed address: the block goes free at the head of the list
(src/main.cpp lines 190-191). -/
theorem free_commit_none (st1 : Allocator) (hI1 : Inv st1) (a : Nat)
    (b1 : BlockHeader) (hb1mem : b1 ∈ st1.blocks) (hb1addr : b1.addr = a)
    (hb1free : b1.is_free = false)
    (hright : ∀ d ∈ st1.blocks, d.addr = b1.addr + b1.size →
      d.is_free = false)
    (hfind : st1.free_list.find? (fun c => c + sizeAt st1 c == a) = none) :
    Inv { st1 with
            blocks := markFreeAt a st1.blocks
            free_list := addToFreeList st1.free_list a } := by
  subst hb1addr
  obtain ⟨⟨hT, hND, hMF, hFM⟩, hAdj⟩ := hI1
  have hnone := List.find?_eq_none.mp hfind
  have hb1size : headerSize ≤ b1.size :=
    (tilesFrom_bounds _ _ _ hT b1 hb1mem).2.2
  have hb1notfl : b1.addr ∉ st1.free_list := by
    intro hmem
    obtain ⟨d, hdmem, hdaddr, hdfree⟩ := hMF _ hmem
    have hdb : d = b1 := tiled_addr_inj hT hdmem hb1mem hdaddr
    rw [hdb, hb1free] at hdfree
    exact absurd hdfree (by simp)
  obtain ⟨u1, w, hbs, hu1, hw⟩ :=
    tilesFrom_decomp st1.blocks 0 st1.pool_size b1 hT hb1mem
  have hune : ∀ x ∈ u1, x.addr ≠ b1.addr := fun x hx =>
    Nat.ne_of_lt (addr_lt_of_mem_left hu1 hx)
  have hblocks : markFreeAt b1.addr st1.blocks =
      u1 ++ ⟨b1.addr, b1.size, true⟩ :: w := by
    rw [hbs]
    exact markFreeAt_eval hune rfl
  refine ⟨⟨?_, ?_, ?_, ?_⟩, ?_⟩
  · show tilesFrom 0 st1.pool_size _
    rw [hblocks]
    exact (tilesFrom_append _ _ _ _).mpr
      ⟨b1.addr, hu1, tilesFrom_cons.mpr ⟨rfl, hb1size, hw⟩⟩
  · show List.Nodup _
    exact List.nodup_cons.mpr ⟨hb1notfl, hND⟩
  · show ∀ x ∈ _, _
    rw [hblocks]
    intro x hx
    rcases List.mem_cons.mp hx with hx1 | hx2
    · exact ⟨⟨b1.addr, b1.size, true⟩,
        List.mem_append_right _ (List.mem_cons_self _ _), hx1 ▸ rfl, rfl⟩
    · obtain ⟨d, hdmem, hdaddr, hdfree⟩ := hMF x hx2
      have hdne : d ≠ b1 := fun h => by
        rw [h, hb1free] at hdfree
        exact absurd hdfree (by simp)
      refine ⟨d, ?_, hdaddr, hdfree⟩
      rcases List.mem_append.mp (hbs ▸ hdmem) with h | h
      · exact List.mem_append_left _ h
      · rcases List.mem_cons.mp h with h | h
        · exact absurd h hdne
        · exact List.mem_append_right _ (List.mem_cons_of_mem _ h)
  · show ∀ d ∈ _, _
    rw [hblocks]
    intro d hd hdfree
    rcases List.mem_append.mp hd with hdu | hdc
    · have hdmem : d ∈ st1.blocks := by
        rw [hbs]
        exact List.mem_append_left _ hdu
      exact List.mem_cons_of_mem _ (hFM d hdmem hdfree)
    · rcases List.mem_cons.mp hdc with hd1 | hdw
      · rw [hd1]
        exact List.mem_cons_self _ _
      · have hdmem : d ∈ st1.blocks := by
          rw [hbs]
          exact List.mem_append_right _ (List.mem_cons_of_mem _ hdw)
        exact List.mem_cons_of_mem _ (hFM d hdmem hdfree)
  · show noAdjacentFree _
    rw [hblocks]
    have hAdj2 := hbs ▸ hAdj
    obtain ⟨hcu, hcbw, hbd⟩ := List.chain'_append.mp hAdj2
    obtain ⟨hbhead, hcw⟩ := List.chain'_cons'.mp hcbw
    refine List.chain'_append.mpr ⟨hcu, ?_, ?_⟩
    · refine List.chain'_cons'.mpr ⟨?_, hcw⟩
      intro y hy
      have hyaddr : y.addr = b1.addr + b1.size := head_addr_of_tiles hw y hy
      have hymem : y ∈ st1.blocks := by
        rw [hbs]
        exact List.mem_append_right _
          (List.mem_cons_of_mem _ (List.mem_of_mem_head? hy))
      exact Or.inr (hright y hymem hyaddr)
    · intro x hx y hy
      simp only [List.head?_cons, Option.mem_def, Option.some.injEq] at hy
      refine Or.inl ?_
      -- the last block of the prefix ends at b1.addr; were it free the
      -- left scan would have found it
      have hu1full : u1 = u1.dropLast ++ [x] := eq_dropLast_concat_of_getLast? hx
      obtain ⟨m, hdl, hxt⟩ :=
        (tilesFrom_append u1.dropLast [x] 0 b1.addr).mp (hu1full ▸ hu1)
      have hxaddr : x.addr = m := hxt.1
      have hxend : x.addr + x.size = b1.addr := by
        have h2 : m + x.size = b1.addr := hxt.2.2
        rw [hxaddr]
        exact h2
      by_contra hxf
      have hxfree : x.is_free = true := by
        cases h : x.is_free with
        | false => exact absurd h hxf
        | true => rfl
      have hxmem : x ∈ st1.blocks := by
        rw [hbs]
        exact List.mem_append_left _ (by rw [hu1full]; simp)
      have hxfl : x.addr ∈ st1.free_list := hFM x hxmem hxfree
      have hxsz : sizeAt st1 x.addr = x.size := sizeAt_of_tiled hT hxmem
      have := hnone x.addr hxfl
      rw [hxsz] at this
      exact this (beq_iff_eq.mpr hxend)

/-- The final stage of deallocate when the left scan finds the free block
ending at the freed address: the freed block is absorbed into it
(src/main.cpp lines 180-186). -/
theorem free_commit_some (st1 : Allocator) (hI1 : Inv st1) (a : Nat)
    (b1 : BlockHeader) (hb1mem : b1 ∈ st1.blocks) (hb1addr : b1.addr = a)
    (hb1free : b1.is_free = false)
    (hright : ∀ d ∈ st1.blocks, d.addr = b1.addr + b1.size →
      d.is_free = false)
    {c0 : Nat}
    (hfind : st1.free_list.find? (fun c => c + sizeAt st1 c == a) = some c0) :
    Inv { st1 with
            blocks := dropBlockAt a (growBlockAt c0 (sizeAt st1 a) st1.blocks) } := by
  subst hb1addr
  obtain ⟨⟨hT, hND, hMF, hFM⟩, hAdj⟩ := hI1
  have hH : headerSize = 32 := rfl
  have hsz1 : sizeAt st1 b1.addr = b1.size := sizeAt_of_tiled hT hb1mem
  have hb1size : headerSize ≤ b1.size :=
    (tilesFrom_bounds _ _ _ hT b1 hb1mem).2.2
  have hcmemfl : c0 ∈ st1.free_list := List.mem_of_find?_eq_some hfind
  have hceq0 : c0 + sizeAt st1 c0 = b1.addr := by
    have hp := List.find?_some hfind
    simpa using hp
  obtain ⟨L, hLmem, hLaddr, hLfree⟩ := hMF c0 hcmemfl
  subst hLaddr
  rw [sizeAt_of_tiled hT hLmem] at hceq0
  have hLsize : headerSize ≤ L.size :=
    (tilesFrom_bounds _ _ _ hT L hLmem).2.2
  obtain ⟨uL, w2, hbs2, huL, hw2⟩ := adjacent_decomp hT hLmem hb1mem hceq0
  have hune : ∀ x ∈ uL, x.addr ≠ L.addr := fun x hx =>
    Nat.ne_of_lt (addr_lt_of_mem_left huL hx)
  have hgrow : growBlockAt L.addr (sizeAt st1 b1.addr) st1.blocks =
      uL ++ ⟨L.addr, L.size + b1.size, L.is_free⟩ :: b1 :: w2 := by
    rw [hsz1, hbs2]
    exact growBlockAt_eval hune rfl
  have hdrop : dropBlockAt b1.addr
      (uL ++ ⟨L.addr, L.size + b1.size, L.is_free⟩ :: b1 :: w2) =
      uL ++ ⟨L.addr, L.size + b1.size, L.is_free⟩ :: w2 := by
    have hassoc : uL ++ ⟨L.addr, L.size + b1.size, L.is_free⟩ :: b1 :: w2 =
        (uL ++ [⟨L.addr, L.size + b1.size, L.is_free⟩]) ++ b1 :: w2 := by
      simp
    rw [hassoc, dropBlockAt_eval ?hpre rfl]
    · simp
    case hpre =>
      intro x hx
      rcases List.mem_append.mp hx with h | h
      · have := addr_lt_of_mem_left huL h
        omega
      · simp only [List.mem_singleton] at h
        rw [h]
        show L.addr ≠ b1.addr
        omega
  have hblocks : dropBlockAt b1.addr
      (growBlockAt L.addr (sizeAt st1 b1.addr) st1.blocks) =
      uL ++ ⟨L.addr, L.size + b1.size, L.is_free⟩ :: w2 := by
    rw [hgrow, hdrop]
  have hb1notfl : b1.addr ∉ st1.free_list := by
    intro hmem
    obtain ⟨d, hdmem, hdaddr, hdfree⟩ := hMF _ hmem
    have hdb : d = b1 := tiled_addr_inj hT hdmem hb1mem hdaddr
    rw [hdb, hb1free] at hdfree
    exact absurd hdfree (by simp)
  refine ⟨⟨?_, ?_, ?_, ?_⟩, ?_⟩
  · show tilesFrom 0 st1.pool_size _
    rw [hblocks]
    refine (tilesFrom_append _ _ _ _).mpr ⟨L.addr, huL, ?_⟩
    refine tilesFrom_cons.mpr ⟨rfl, le_trans hLsize (Nat.le_add_right _ _), ?_⟩
    show tilesFrom (L.addr + (L.size + b1.size)) st1.pool_size w2
    have harith : L.addr + (L.size + b1.size) = b1.addr + b1.size := by
      omega
    rw [harith]
    exact hw2
  · show List.Nodup _
    exact hND
  · show ∀ x ∈ _, _
    rw [hblocks]
    intro x hx
    obtain ⟨d, hdmem, hdaddr, hdfree⟩ := hMF x hx
    by_cases hdL : d = L
    · refine ⟨⟨L.addr, L.size + b1.size, L.is_free⟩,
        List.mem_append_right _ (List.mem_cons_self _ _), ?_, ?_⟩
      · rw [← hdaddr, hdL]
      · show L.is_free = true
        exact hLfree
    · have hdne : d ≠ b1 := fun h => by
        rw [h, hb1free] at hdfree
        exact absurd hdfree (by simp)
      refine ⟨d, ?_, hdaddr, hdfree⟩
      rcases List.mem_append.mp (hbs2 ▸ hdmem) with h | h
      · exact List.mem_append_left _ h
      · rcases List.mem_cons.mp h with h | h
        · exact absurd h hdL
        · rcases List.mem_cons.mp h with h | h
          · exact absurd h hdne
          · exact List.mem_append_right _ (List.mem_cons_of_mem _ h)
  · show ∀ d ∈ _, _
    rw [hblocks]
    intro d hd hdfree
    rcases List.mem_append.mp hd with hdu | hdc
    · have hdmem : d ∈ st1.blocks := by
        rw [hbs2]
        exact List.mem_append_left _ hdu
      exact hFM d hdmem hdfree
    · rcases List.mem_cons.mp hdc with hd1 | hdw
      · rw [hd1]
        exact hcmemfl
      · have hdmem : d ∈ st1.blocks := by
          rw [hbs2]
          exact List.mem_append_right _
            (List.mem_cons_of_mem _ (List.mem_cons_of_mem _ hdw))
        exact hFM d hdmem hdfree
  · show noAdjacentFree _
    rw [hblocks]
    have hAdj2 := hbs2 ▸ hAdj
    obtain ⟨hcu, hcLbw, hbd⟩ := List.chain'_append.mp hAdj2
    obtain ⟨hrelLb1, hcb1w⟩ := List.chain'_cons.mp hcLbw
    obtain ⟨hb1head, hcw2⟩ := List.chain'_cons'.mp hcb1w
    refine List.chain'_append.mpr ⟨hcu, ?_, ?_⟩
    · refine List.chain'_cons'.mpr ⟨?_, hcw2⟩
      intro y hy
      have hyaddr : y.addr = b1.addr + b1.size := head_addr_of_tiles hw2 y hy
      have hymem : y ∈ st1.blocks := by
        rw [hbs2]
        exact List.mem_append_right _
          (List.mem_cons_of_mem _
            (List.mem_cons_of_mem _ (List.mem_of_mem_head? hy)))
      exact Or.inr (hright y hymem hyaddr)
    · intro x hx y hy
      simp only [List.head?_cons, Option.mem_def, Option.some.injEq] at hy
      have hrel := hbd x hx L (by simp)
      rcases hrel with h | h
      · exact Or.inl h
      · rw [hLfree] at h
        exact absurd h (by simp)

/-- The right-coalesce stage of deallocate (src/main.cpp lines 167-174)
keeps the invariant, leaves an allocated block at the freed address, and
guarantees that the block physically after it (if any) is not free. -/
theorem rightCoalesce_stage (st : Allocator) (hI : Inv st) (b : BlockHeader)
    (hbmem : b ∈ st.blocks) (hbfree : b.is_free = false) :
    Inv (rightCoalesce st b.addr) ∧
    (rightCoalesce st b.addr).pool_size = st.pool_size ∧
    ∃ b1 ∈ (rightCoalesce st b.addr).blocks, b1.addr = b.addr ∧
      b1.is_free = false ∧
      ∀ d ∈ (rightCoalesce st b.addr).blocks,
        d.addr = b1.addr + b1.size → d.is_free = false := by
  obtain ⟨⟨hT, hND, hMF, hFM⟩, hAdj⟩ := hI
  have hH : headerSize = 32 := rfl
  have hsz : sizeAt st b.addr = b.size := sizeAt_of_tiled hT hbmem
  have hbsize : headerSize ≤ b.size :=
    (tilesFrom_bounds _ _ _ hT b hbmem).2.2
  obtain ⟨u, v, hbs, hu, hv⟩ :=
    tilesFrom_decomp st.blocks 0 st.pool_size b hT hbmem
  cases v with
  | nil =>
    have hend : b.addr + b.size = st.pool_size := hv
    have hguard : ¬ (b.addr + sizeAt st b.addr < st.pool_size ∧
        isFreeAtAddr st (b.addr + sizeAt st b.addr) = true) := by
      rw [hsz]
      rintro ⟨h1, -⟩
      omega
    have hrc : rightCoalesce st b.addr = st := by
      unfold rightCoalesce
      rw [if_neg hguard]
    rw [hrc]
    refine ⟨⟨⟨hT, hND, hMF, hFM⟩, hAdj⟩, rfl, b, hbmem, rfl, hbfree, ?_⟩
    intro d hd haddr
    exfalso
    have hdb := tilesFrom_bounds _ _ _ hT d hd
    omega
  | cons c v1 =>
    have hcaddr : c.addr = b.addr + b.size := hv.1
    have hcsize : headerSize ≤ c.size := hv.2.1
    have hv1 : tilesFrom (b.addr + b.size + c.size) st.pool_size v1 := hv.2.2
    have hcmem : c ∈ st.blocks := by
      rw [hbs]
      exact List.mem_append_right _
        (List.mem_cons_of_mem _ (List.mem_cons_self _ _))
    have hcfree_eq : isFreeAtAddr st (b.addr + b.size) = c.is_free := by
      rw [← hcaddr]
      exact isFreeAtAddr_of_tiled hT hcmem
    have hlt : b.addr + b.size < st.pool_size := by
      have hcb := tilesFrom_bounds _ _ _ hT c hcmem
      omega
    cases hcf : c.is_free with
    | false =>
      have hguard : ¬ (b.addr + sizeAt st b.addr < st.pool_size ∧
          isFreeAtAddr st (b.addr + sizeAt st b.addr) = true) := by
        rw [hsz, hcfree_eq, hcf]
        rintro ⟨-, h2⟩
        exact absurd h2 (by simp)
      have hrc : rightCoalesce st b.addr = st := by
        unfold rightCoalesce
        rw [if_neg hguard]
      rw [hrc]
      refine ⟨⟨⟨hT, hND, hMF, hFM⟩, hAdj⟩, rfl, b, hbmem, rfl, hbfree, ?_⟩
      intro d hd haddr
      have hdc : d = c := tiled_addr_inj hT hd hcmem (by rw [haddr, hcaddr])
      rw [hdc]
      exact hcf
    | true =>
      have hguard : b.addr + sizeAt st b.addr < st.pool_size ∧
          isFreeAtAddr st (b.addr + sizeAt st b.addr) = true := by
        rw [hsz]
        exact ⟨hlt, by rw [hcfree_eq, hcf]⟩
      have hune : ∀ x ∈ u, x.addr ≠ b.addr := fun x hx =>
        Nat.ne_of_lt (addr_lt_of_mem_left hu hx)
      have hsznext : sizeAt st (b.addr + b.size) = c.size := by
        rw [← hcaddr]
        exact sizeAt_of_tiled hT hcmem
      have hgrow : growBlockAt b.addr c.size st.blocks =
          u ++ ⟨b.addr, b.size + c.size, b.is_free⟩ :: c :: v1 := by
        rw [hbs]
        exact growBlockAt_eval hune rfl
      have hdrop : dropBlockAt (b.addr + b.size)
          (u ++ ⟨b.addr, b.size + c.size, b.is_free⟩ :: c :: v1) =
          u ++ ⟨b.addr, b.size + c.size, b.is_free⟩ :: v1 := by
        have hassoc : u ++ ⟨b.addr, b.size + c.size, b.is_free⟩ :: c :: v1 =
            (u ++ [⟨b.addr, b.size + c.size, b.is_free⟩]) ++ c :: v1 := by
          simp
        rw [hassoc, dropBlockAt_eval ?hpre hcaddr]
        · simp
        case hpre =>
          intro x hx
          rcases List.mem_append.mp hx with h | h
          · have := addr_lt_of_mem_left hu h
            omega
          · simp only [List.mem_singleton] at h
            rw [h]
            show b.addr ≠ b.addr + b.size
            omega
      obtain ⟨pc, qc, hflc⟩ := List.append_of_mem (hFM c hcmem hcf)
      have hndc := List.nodup_cons.mp (List.nodup_middle.mp (hflc ▸ hND))
      have hpcnot : c.addr ∉ pc := fun h => hndc.1 (List.mem_append_left qc h)
      have herase : removeFromFreeList st.free_list (b.addr + b.size) =
          pc ++ qc := by
        unfold removeFromFreeList
        rw [← hcaddr, hflc, List.erase_append_right _ hpcnot,
          List.erase_cons_head]
      have hrc : rightCoalesce st b.addr =
          { st with
              blocks := u ++ ⟨b.addr, b.size + c.size, b.is_free⟩ :: v1
              free_list := pc ++ qc } := by
        unfold rightCoalesce
        rw [if_pos hguard]
        rw [hsz, hsznext, hgrow, hdrop, herase]
      rw [hbfree] at hrc
      rw [hrc]
      have hsubfl : ∀ x ∈ pc ++ qc, x ∈ st.free_list := by
        intro x hx
        rw [hflc]
        exact mem_middle_subset hx
      have hnec : ∀ x ∈ pc ++ qc, x ≠ c.addr := fun x hx h =>
        hndc.1 (h ▸ hx)
      have hAdj2 := hbs ▸ hAdj
      obtain ⟨hcu, hcbcv, hbd⟩ := List.chain'_append.mp hAdj2
      obtain ⟨hrelbc, hccv⟩ := List.chain'_cons.mp hcbcv
      obtain ⟨hchead, hcv1⟩ := List.chain'_cons'.mp hccv
      have hT2 : tilesFrom 0 st.pool_size
          (u ++ ⟨b.addr, b.size + c.size, false⟩ :: v1) := by
        refine (tilesFrom_append _ _ _ _).mpr ⟨b.addr, hu, ?_⟩
        refine tilesFrom_cons.mpr
          ⟨rfl, le_trans hbsize (Nat.le_add_right _ _), ?_⟩
        show tilesFrom (b.addr + (b.size + c.size)) st.pool_size v1
        have harith : b.addr + (b.size + c.size) = b.addr + b.size + c.size := by
          omega
        rw [harith]
        exact hv1
      refine ⟨⟨⟨hT2, hndc.2, ?_, ?_⟩, ?_⟩, rfl, ?_⟩
      · intro x hx
        obtain ⟨d, hdmem, hdaddr, hdfree⟩ := hMF x (hsubfl x hx)
        have hdne : d ≠ b := fun h => by
          rw [h, hbfree] at hdfree
          exact absurd hdfree (by simp)
        have hdnc : d ≠ c := fun h => hnec x hx (by rw [← hdaddr, h])
        refine ⟨d, ?_, hdaddr, hdfree⟩
        rcases List.mem_append.mp (hbs ▸ hdmem) with h | h
        · exact List.mem_append_left _ h
        · rcases List.mem_cons.mp h with h | h
          · exact absurd h hdne
          · rcases List.mem_cons.mp h with h | h
            · exact absurd h hdnc
            · exact List.mem_append_right _ (List.mem_cons_of_mem _ h)
      · intro d hd hdfree
        rcases List.mem_append.mp hd with hdu | hdc
        · have hdlt := addr_lt_of_mem_left hu hdu
          have hdmem : d ∈ st.blocks := by
            rw [hbs]
            exact List.mem_append_left _ hdu
          have hdfl := hFM d hdmem hdfree
          refine mem_middle_of_ne (hflc ▸ hdfl) ?_
          omega
        · rcases List.mem_cons.mp hdc with hd1 | hdv1
          · rw [hd1] at hdfree
            exact absurd hdfree (by simp)
          · have hdge := addr_ge_of_mem_suffix hv1 hdv1
            have hdmem : d ∈ st.blocks := by
              rw [hbs]
              exact List.mem_append_right _
                (List.mem_cons_of_mem _ (List.mem_cons_of_mem _ hdv1))
            have hdfl := hFM d hdmem hdfree
            refine mem_middle_of_ne (hflc ▸ hdfl) ?_
            have hcb := tilesFrom_bounds _ _ _ hT c hcmem
            omega
      · refine List.chain'_append.mpr ⟨hcu, ?_, ?_⟩
        · refine List.chain'_cons'.mpr ⟨?_, hcv1⟩
          intro y hy
          have := hchead y hy
          rcases this with h | h
          · rw [hcf] at h
            exact absurd h (by simp)
          · exact Or.inr h
        · intro x hx y hy
          simp only [List.head?_cons, Option.mem_def, Option.some.injEq] at hy
          rw [← hy]
          exact Or.inr rfl
      · refine ⟨⟨b.addr, b.size + c.size, false⟩,
          List.mem_append_right _ (List.mem_cons_self _ _), rfl, rfl, ?_⟩
        intro d hd haddr
        obtain ⟨y, hyhead, hdy⟩ := right_neighbor_block hT2 rfl hd haddr
        have hrel := hchead y (Option.mem_def.mpr hyhead)
        rcases hrel with h | h
        · rw [hcf] at h
          exact absurd h (by simp)
        · rw [hdy]
          exact h

/-- Allocator::deallocate of a valid pointer preserves the state
invariant. -/
theorem deallocate_preserves_inv (st : Allocator) (hI : Inv st) {ptr : Nat}
    (hvp : validPtr st ptr) : Inv (deallocate st (some ptr)) := by
  obtain ⟨b, hbmem, hbfree, hp⟩ := hvp
  subst hp
  obtain ⟨hI1, hps1, b1, hb1mem, hb1addr, hb1free, hright⟩ :=
    rightCoalesce_stage st hI b hbmem hbfree
  show Inv _
  simp only [deallocate, Nat.add_sub_cancel]
  split
  · next c0 hfind =>
    exact free_commit_some (rightCoalesce st b.addr) hI1 b.addr b1 hb1mem
      hb1addr hb1free hright hfind
  · next hfind =>
    exact free_commit_none (rightCoalesce st b.addr) hI1 b.addr b1 hb1mem
      hb1addr hb1free hright hfind

/-- Every state reachable through the public interface satisfies the
partition, free-list and no-adjacent-free invariants. -/
theorem reachable_inv {st : Allocator} (h : Reachable st) : Inv st := by
  induction h with
  | construct ps hps => exact mkAllocator_inv ps hps
  | alloc n h ih => exact allocate_preserves_inv _ ih n
  | dealloc h hvp ih => exact deallocate_preserves_inv _ ih hvp

/-- C4: after any sequence of allocate and deallocate calls (valid
pointers only) on a successfully constructed allocator, the blocks tile
the pool exactly: the first block starts at 0, each block's start plus its
size is the next block's start, the last block ends at pool_size, and
every block is at least one header large. -/
theorem reachable_partition (st : Allocator) (h : Reachable st) :
    tilesFrom 0 st.pool_size st.blocks :=
  (reachable_inv h).1.1

theorem reachable_partition_witness :
    tilesFrom 0 (allocate (mkAllocator 1024) 100).2.pool_size
      (allocate (mkAllocator 1024) 100).2.blocks :=
  reachable_partition _
    (Reachable.alloc 100 (Reachable.construct 1024 (by decide)))

/-- C3: after every deallocate of a valid, currently allocated pointer
in a reachable state, no two physically adjacent blocks in the pool are
both free. -/
theorem deallocate_no_adjacent_free (st : Allocator) (p : Nat)
    (h : Reachable st) (hvp : validPtr st p) :
    noAdjacentFree (deallocate st (some p)).blocks :=
  (deallocate_preserves_inv st (reachable_inv h) hvp).2

theorem deallocate_no_adjacent_free_witness :
    noAdjacentFree (deallocate demoR3.2 (some 164)).blocks :=
  deallocate_no_adjacent_free demoR3.2 164
    (Reachable.alloc 50 (Reachable.alloc 200 (Reachable.alloc 100
      (Reachable.construct 1024 (by decide)))))
    (by decide)

/-! The round-trip property: an allocation immediately undone by a
deallocation restores the physical layout exactly and the free list up to
order. -/

instance (bs : List BlockHeader) : Decidable (noAdjacentFree bs) :=
  decidable_of_iff _ (noAdjacentFreeB_iff bs)

instance (st : Allocator) : Decidable (Inv st) :=
  inferInstanceAs (Decidable (_ ∧ _))

theorem sizeAt_congr {st1 st2 : Allocator} (h : st1.blocks = st2.blocks)
    (a : Nat) : sizeAt st1 a = sizeAt st2 a := by
  unfold sizeAt lookupBlock
  rw [h]

/-- When the block at b.addr was free in a well formed state st and stays
physically unchanged (merely marked allocated) in st1, and the free list of
st1 only holds other free blocks of st, the left-coalesce scan of
deallocate finds nothing: no free block ends at b.addr, because the
physical left neighbor of a free block is never free. -/
theorem no_left_free_neighbor (st : Allocator) (hI : Inv st)
    {u v : List BlockHeader} {b : BlockHeader}
    (hbs : st.blocks = u ++ b :: v) (hbfree : b.is_free = true)
    (st1 : Allocator) (hps1 : st1.pool_size = st.pool_size)
    (hbl1 : st1.blocks = u ++ ⟨b.addr, b.size, false⟩ :: v)
    (hfl1 : ∀ x ∈ st1.free_list, x ∈ st.free_list ∧ x ≠ b.addr) :
    st1.free_list.find? (fun c => c + sizeAt st1 c == b.addr) = none := by
  have hT := hI.1.1
  have hMF := hI.1.2.2.1
  have hAdj := hI.2
  have hbmem : b ∈ st.blocks := by
    rw [hbs]
    exact List.mem_append_right _ (List.mem_cons_self _ _)
  obtain ⟨m, hu, hbv⟩ :=
    (tilesFrom_append u (b :: v) 0 st.pool_size).mp (hbs ▸ hT)
  have hbaddr : b.addr = m := hbv.1
  have hT1 : tilesFrom 0 st1.pool_size st1.blocks := by
    rw [hbl1, hps1]
    exact (tilesFrom_append _ _ _ _).mpr
      ⟨m, hu, tilesFrom_cons.mpr ⟨hbaddr, hbv.2.1, hbv.2.2⟩⟩
  refine List.find?_eq_none.mpr ?_
  intro x hx
  obtain ⟨hxfl, hxne⟩ := hfl1 x hx
  obtain ⟨d, hdmem, hdaddr, hdfree⟩ := hMF x hxfl
  subst hdaddr
  have hdne : d ≠ b := fun h => hxne (by rw [h])
  have hdmem1 : d ∈ st1.blocks := by
    rw [hbl1]
    rcases List.mem_append.mp (hbs ▸ hdmem) with h | h
    · exact List.mem_append_left _ h
    · rcases List.mem_cons.mp h with h | h
      · exact absurd h hdne
      · exact List.mem_append_right _ (List.mem_cons_of_mem _ h)
  have hdsz : sizeAt st1 d.addr = d.size := sizeAt_of_tiled hT1 hdmem1
  intro hbeq
  have heq : d.addr + d.size = b.addr := by
    have h2 := beq_iff_eq.mp hbeq
    rw [hdsz] at h2
    exact h2
  obtain ⟨uL, w2, hbs2, -, -⟩ := adjacent_decomp hT hdmem hbmem heq
  have hAdj2 := hbs2 ▸ hAdj
  obtain ⟨-, hch, -⟩ := List.chain'_append.mp hAdj2
  have hrel := (List.chain'_cons.mp hch).1
  rcases hrel with h | h
  · rw [hdfree] at h
    exact absurd h (by simp)
  · rw [hbfree] at h
    exact absurd h (by simp)

/-- C6: in every well formed state, a successful allocate(n) for n > 0
immediately followed by deallocate of the returned pointer restores the
physical block layout exactly (so a split is coalesced back into the
original single free extent, same address and size), leaves the free list
a permutation of the original, and restores the total free bytes. -/
theorem allocate_deallocate_roundtrip (st : Allocator) (n p : Nat)
    (hI : Inv st) (hn : 0 < n) (hp : (allocate st n).1 = some p) :
    (deallocate (allocate st n).2 (some p)).blocks = st.blocks ∧
    (deallocate (allocate st n).2 (some p)).free_list.Perm st.free_list ∧
    totalFreeBytes (deallocate (allocate st n).2 (some p)) =
      totalFreeBytes st := by
  have hT := hI.1.1
  have hND := hI.1.2.1
  have hMF := hI.1.2.2.1
  have hFM := hI.1.2.2.2
  have hAdj := hI.2
  have hH : headerSize = 32 := rfl
  have hn' : n ≠ 0 := Nat.pos_iff_ne_zero.mp hn
  have hall : allocate st n = allocLoop st (n + headerSize) st.free_list := by
    simp only [allocate, if_neg hn']
  rcases allocLoop_cases st (n + headerSize) st.free_list with
    h | ⟨a, ha, hfit, hc⟩
  · rw [hall, h] at hp
    exact absurd hp (by simp)
  obtain ⟨b, hbmem, hbaddr, hbfree⟩ := hMF a ha
  subst hbaddr
  have hsz : sizeAt st b.addr = b.size := sizeAt_of_tiled hT hbmem
  rw [hsz] at hfit hc
  obtain ⟨u, v, hbs, hu, hv⟩ :=
    tilesFrom_decomp st.blocks 0 st.pool_size b hT hbmem
  have hune : ∀ x ∈ u, x.addr ≠ b.addr := fun x hx =>
    Nat.ne_of_lt (addr_lt_of_mem_left hu hx)
  have hbsize : headerSize ≤ b.size :=
    (tilesFrom_bounds _ _ _ hT b hbmem).2.2
  have hbend : b.addr + b.size ≤ st.pool_size :=
    tilesFrom_le v _ _ hv
  obtain ⟨pfl, qfl, hfl⟩ := List.append_of_mem ha
  have hndmid := List.nodup_cons.mp (List.nodup_middle.mp (hfl ▸ hND))
  have hpne : ∀ x ∈ pfl, x ≠ b.addr := fun x hx h =>
    hndmid.1 (h ▸ List.mem_append_left qfl hx)
  have hqne : ∀ x ∈ qfl, x ≠ b.addr := fun x hx h =>
    hndmid.1 (h ▸ List.mem_append_right pfl hx)
  have hbeta : (⟨b.addr, b.size, true⟩ : BlockHeader) = b := by
    cases b
    simp_all
  have hflprop : ∀ x ∈ pfl ++ qfl, x ∈ st.free_list ∧ x ≠ b.addr := by
    intro x hx
    refine ⟨by rw [hfl]; exact mem_middle_subset hx, ?_⟩
    rcases List.mem_append.mp hx with h | h
    · exact hpne x h
    · exact hqne x h
  have hperm : (b.addr :: (pfl ++ qfl)).Perm st.free_list := by
    rw [hfl]
    exact List.perm_middle.symm
  rcases hc with ⟨hsplit, heq⟩ | ⟨hle, heq⟩
  · -- split case: the remainder free block sits right of the allocation
    have hpv : p = b.addr + headerSize := by
      rw [hall, heq] at hp
      have h2 := hp
      simp only [Option.some.injEq] at h2
      exact h2.symm
    subst hpv
    have hintfl : ∀ x ∈ st.free_list, x ≠ b.addr + (n + headerSize) := by
      intro x hx hxeq
      obtain ⟨c, hcmem, hcaddr, -⟩ := hMF x hx
      have hout := mem_addr_outside hu hv (hbs ▸ hcmem)
      omega
    have hblocks2 : splitBlockAt b.addr (n + headerSize) st.blocks =
        u ++ ⟨b.addr, n + headerSize, false⟩ ::
          ⟨b.addr + (n + headerSize), b.size - (n + headerSize), true⟩ :: v := by
      rw [hbs]
      exact splitBlockAt_eval hune rfl
    have hflmap : st.free_list.map
        (fun x => if x = b.addr then b.addr + (n + headerSize) else x) =
        pfl ++ (b.addr + (n + headerSize)) :: qfl := by
      rw [hfl]
      exact map_replace_eval hpne hqne
    have hst2 : (allocate st n).2 =
        { st with
            blocks := u ++ ⟨b.addr, n + headerSize, false⟩ ::
              ⟨b.addr + (n + headerSize), b.size - (n + headerSize), true⟩ :: v
            free_list := pfl ++ (b.addr + (n + headerSize)) :: qfl } := by
      rw [hall, heq]
      dsimp only
      rw [hblocks2, hflmap]
    rw [hst2]
    -- evaluate the deallocate on that state
    have hszA : sizeAt
        { st with
            blocks := u ++ ⟨b.addr, n + headerSize, false⟩ ::
              ⟨b.addr + (n + headerSize), b.size - (n + headerSize), true⟩ :: v
            free_list := pfl ++ (b.addr + (n + headerSize)) :: qfl } b.addr =
        n + headerSize := by
      unfold sizeAt
      rw [show lookupBlock (u ++ ⟨b.addr, n + headerSize, false⟩ ::
          ⟨b.addr + (n + headerSize), b.size - (n + headerSize), true⟩ :: v)
          b.addr = some ⟨b.addr, n + headerSize, false⟩ from
        lookupBlock_append hune]
    have hpre2 : ∀ x ∈ u ++ [(⟨b.addr, n + headerSize, false⟩ : BlockHeader)],
        x.addr ≠ b.addr + (n + headerSize) := by
      intro x hx
      rcases List.mem_append.mp hx with h | h
      · have := addr_lt_of_mem_left hu h
        omega
      · simp only [List.mem_singleton] at h
        rw [h]
        show b.addr ≠ b.addr + (n + headerSize)
        omega
    have hlookF : lookupBlock (u ++ ⟨b.addr, n + headerSize, false⟩ ::
        ⟨b.addr + (n + headerSize), b.size - (n + headerSize), true⟩ :: v)
        (b.addr + (n + headerSize)) =
        some ⟨b.addr + (n + headerSize), b.size - (n + headerSize), true⟩ := by
      have hshape : u ++ (⟨b.addr, n + headerSize, false⟩ : BlockHeader) ::
          ⟨b.addr + (n + headerSize), b.size - (n + headerSize), true⟩ :: v =
          (u ++ [⟨b.addr, n + headerSize, false⟩]) ++
            ⟨b.addr + (n + headerSize), b.size - (n + headerSize), true⟩ :: v := by
        simp
      rw [hshape]
      exact lookupBlock_append hpre2
    have hfreeF : isFreeAtAddr
        { st with
            blocks := u ++ ⟨b.addr, n + headerSize, false⟩ ::
              ⟨b.addr + (n + headerSize), b.size - (n + headerSize), true⟩ :: v
            free_list := pfl ++ (b.addr + (n + headerSize)) :: qfl }
        (b.addr + (n + headerSize)) = true := by
      unfold isFreeAtAddr
      rw [hlookF]
    have hszF : sizeAt
        { st with
            blocks := u ++ ⟨b.addr, n + headerSize, false⟩ ::
              ⟨b.addr + (n + headerSize), b.size - (n + headerSize), true⟩ :: v
            free_list := pfl ++ (b.addr + (n + headerSize)) :: qfl }
        (b.addr + (n + headerSize)) = b.size - (n + headerSize) := by
      unfold sizeAt
      rw [hlookF]
    have hgrow1 : growBlockAt b.addr (b.size - (n + headerSize))
        (u ++ ⟨b.addr, n + headerSize, false⟩ ::
          ⟨b.addr + (n + headerSize), b.size - (n + headerSize), true⟩ :: v) =
        u ++ ⟨b.addr, n + headerSize + (b.size - (n + headerSize)), false⟩ ::
          ⟨b.addr + (n + headerSize), b.size - (n + headerSize), true⟩ :: v :=
      growBlockAt_eval hune rfl
    have harith : n + headerSize + (b.size - (n + headerSize)) = b.size := by
      omega
    rw [harith] at hgrow1
    have hdrop1 : dropBlockAt (b.addr + (n + headerSize))
        (u ++ ⟨b.addr, b.size, false⟩ ::
          ⟨b.addr + (n + headerSize), b.size - (n + headerSize), true⟩ :: v) =
        u ++ ⟨b.addr, b.size, false⟩ :: v := by
      have hshape : u ++ (⟨b.addr, b.size, false⟩ : BlockHeader) ::
          ⟨b.addr + (n + headerSize), b.size - (n + headerSize), true⟩ :: v =
          (u ++ [⟨b.addr, b.size, false⟩]) ++
            ⟨b.addr + (n + headerSize), b.size - (n + headerSize), true⟩ :: v := by
        simp
      rw [hshape]
      have hpre3 : ∀ x ∈ u ++ [(⟨b.addr, b.size, false⟩ : BlockHeader)],
          x.addr ≠ b.addr + (n + headerSize) := by
        intro x hx
        rcases List.mem_append.mp hx with h | h
        · have := addr_lt_of_mem_left hu h
          omega
        · simp only [List.mem_singleton] at h
          rw [h]
          show b.addr ≠ b.addr + (n + headerSize)
          omega
      rw [dropBlockAt_eval hpre3 rfl]
      simp
    have hpflnot : (b.addr + (n + headerSize)) ∉ pfl := fun h =>
      hintfl _ (by rw [hfl]; exact List.mem_append_left _ h) rfl
    have herase1 : removeFromFreeList
        (pfl ++ (b.addr + (n + headerSize)) :: qfl)
        (b.addr + (n + headerSize)) = pfl ++ qfl := by
      unfold removeFromFreeList
      rw [List.erase_append_right _ hpflnot, List.erase_cons_head]
    have hrc : rightCoalesce
        { st with
            blocks := u ++ ⟨b.addr, n + headerSize, false⟩ ::
              ⟨b.addr + (n + headerSize), b.size - (n + headerSize), true⟩ :: v
            free_list := pfl ++ (b.addr + (n + headerSize)) :: qfl } b.addr =
        { st with
            blocks := u ++ ⟨b.addr, b.size, false⟩ :: v
            free_list := pfl ++ qfl } := by
      unfold rightCoalesce
      dsimp only
      rw [hszA]
      rw [if_pos ⟨by omega, hfreeF⟩]
      rw [hszF, hgrow1, hdrop1, herase1]
    have hnone := no_left_free_neighbor st hI hbs hbfree
      { st with
          blocks := u ++ ⟨b.addr, b.size, false⟩ :: v
          free_list := pfl ++ qfl } rfl rfl hflprop
    have hmf2 : markFreeAt b.addr (u ++ ⟨b.addr, b.size, false⟩ :: v) =
        st.blocks := by
      have h1 : markFreeAt b.addr (u ++ ⟨b.addr, b.size, false⟩ :: v) =
          u ++ ⟨b.addr, b.size, true⟩ :: v := markFreeAt_eval hune rfl
      rw [h1, hbeta, ← hbs]
    show _ ∧ _ ∧ _
    simp only [deallocate, Nat.add_sub_cancel]
    rw [hrc, hnone]
    refine ⟨?_, ?_, ?_⟩
    · show markFreeAt b.addr (u ++ ⟨b.addr, b.size, false⟩ :: v) = st.blocks
      exact hmf2
    · show (addToFreeList (pfl ++ qfl) b.addr).Perm st.free_list
      exact hperm
    · show totalFreeBytes _ = totalFreeBytes st
      unfold totalFreeBytes
      have hbl : (({ st with
          blocks := u ++ ⟨b.addr, b.size, false⟩ :: v
          free_list := pfl ++ qfl } : Allocator) : Allocator).blocks =
          u ++ ⟨b.addr, b.size, false⟩ :: v := rfl
      have hszc : ∀ x : Nat, sizeAt
          { pool_size := st.pool_size
            blocks := markFreeAt b.addr (u ++ ⟨b.addr, b.size, false⟩ :: v)
            free_list := addToFreeList (pfl ++ qfl) b.addr } x =
          sizeAt st x := fun x => sizeAt_congr hmf2 x
      simp only [hszc]
      exact (hperm.map _).sum_eq
  · -- unsplit case: the whole block is handed out and freed again
    have hpv : p = b.addr + headerSize := by
      rw [hall, heq] at hp
      have h2 := hp
      simp only [Option.some.injEq] at h2
      exact h2.symm
    subst hpv
    have hblocks2 : markAllocatedAt b.addr st.blocks =
        u ++ ⟨b.addr, b.size, false⟩ :: v := by
      rw [hbs]
      exact markAllocatedAt_eval hune rfl
    have herase0 : removeFromFreeList st.free_list b.addr = pfl ++ qfl := by
      unfold removeFromFreeList
      have hpnot : b.addr ∉ pfl := fun h => hpne b.addr h rfl
      rw [hfl, List.erase_append_right _ hpnot, List.erase_cons_head]
    have hst2 : (allocate st n).2 =
        { st with
            blocks := u ++ ⟨b.addr, b.size, false⟩ :: v
            free_list := pfl ++ qfl } := by
      rw [hall, heq]
      dsimp only
      rw [hblocks2, herase0]
    rw [hst2]
    have hszA : sizeAt
        { st with
            blocks := u ++ ⟨b.addr, b.size, false⟩ :: v
            free_list := pfl ++ qfl } b.addr = b.size := by
      unfold sizeAt
      rw [show lookupBlock (u ++ ⟨b.addr, b.size, false⟩ :: v) b.addr =
        some ⟨b.addr, b.size, false⟩ from lookupBlock_append hune]
    have hguardF : ¬ (b.addr + sizeAt
        { st with
            blocks := u ++ ⟨b.addr, b.size, false⟩ :: v
            free_list := pfl ++ qfl } b.addr <
          st.pool_size ∧
        isFreeAtAddr
          { st with
              blocks := u ++ ⟨b.addr, b.size, false⟩ :: v
              free_list := pfl ++ qfl }
          (b.addr + sizeAt
            { st with
                blocks := u ++ ⟨b.addr, b.size, false⟩ :: v
                free_list := pfl ++ qfl } b.addr) = true) := by
      rw [hszA]
      rintro ⟨h1, h2⟩
      cases v with
      | nil =>
        have hend : b.addr + b.size = st.pool_size := hv
        omega
      | cons c v1 =>
        have hcaddr : c.addr = b.addr + b.size := hv.1
        have hAdj2 := hbs ▸ hAdj
        obtain ⟨-, hch, -⟩ := List.chain'_append.mp hAdj2
        obtain ⟨hrelbc, -⟩ := List.chain'_cons.mp hch
        have hcnotfree : c.is_free = false := by
          rcases hrelbc with h | h
          · rw [hbfree] at h
            exact absurd h (by simp)
          · exact h
        have hpre2 : ∀ x ∈ u ++ [(⟨b.addr, b.size, false⟩ : BlockHeader)],
            x.addr ≠ b.addr + b.size := by
          intro x hx
          rcases List.mem_append.mp hx with h | h
          · have := addr_lt_of_mem_left hu h
            omega
          · simp only [List.mem_singleton] at h
            rw [h]
            show b.addr ≠ b.addr + b.size
            omega
        have hlookc : lookupBlock (u ++ ⟨b.addr, b.size, false⟩ :: c :: v1)
            (b.addr + b.size) = some c := by
          have hshape : u ++ (⟨b.addr, b.size, false⟩ : BlockHeader) :: c :: v1 =
              (u ++ [⟨b.addr, b.size, false⟩]) ++ c :: v1 := by
            simp
          rw [hshape, ← hcaddr]
          exact lookupBlock_append (by rw [hcaddr]; exact hpre2)
        have h4 : isFreeAtAddr
            { st with
                blocks := u ++ ⟨b.addr, b.size, false⟩ :: c :: v1
                free_list := pfl ++ qfl } (b.addr + b.size) = c.is_free := by
          unfold isFreeAtAddr
          rw [hlookc]
        have h5 : c.is_free = true := h4.symm.trans h2
        rw [hcnotfree] at h5
        exact absurd h5 (by simp)
    have hrc : rightCoalesce
        { st with
            blocks := u ++ ⟨b.addr, b.size, false⟩ :: v
            free_list := pfl ++ qfl } b.addr =
        { st with
            blocks := u ++ ⟨b.addr, b.size, false⟩ :: v
            free_list := pfl ++ qfl } := by
      unfold rightCoalesce
      rw [if_neg hguardF]
    have hnone := no_left_free_neighbor st hI hbs hbfree
      { st with
          blocks := u ++ ⟨b.addr, b.size, false⟩ :: v
          free_list := pfl ++ qfl } rfl rfl hflprop
    have hmf2 : markFreeAt b.addr (u ++ ⟨b.addr, b.size, false⟩ :: v) =
        st.blocks := by
      have h1 : markFreeAt b.addr (u ++ ⟨b.addr, b.size, false⟩ :: v) =
          u ++ ⟨b.addr, b.size, true⟩ :: v := markFreeAt_eval hune rfl
      rw [h1, hbeta, ← hbs]
    show _ ∧ _ ∧ _
    simp only [deallocate, Nat.add_sub_cancel]
    rw [hrc, hnone]
    refine ⟨?_, ?_, ?_⟩
    · show markFreeAt b.addr (u ++ ⟨b.addr, b.size, false⟩ :: v) = st.blocks
      exact hmf2
    · show (addToFreeList (pfl ++ qfl) b.addr).Perm st.free_list
      exact hperm
    · show totalFreeBytes _ = totalFreeBytes st
      unfold totalFreeBytes
      have hszc : ∀ x : Nat, sizeAt
          { pool_size := st.pool_size
            blocks := markFreeAt b.addr (u ++ ⟨b.addr, b.size, false⟩ :: v)
            free_list := addToFreeList (pfl ++ qfl) b.addr } x =
          sizeAt st x := fun x => sizeAt_congr hmf2 x
      simp only [hszc]
      exact (hperm.map _).sum_eq

theorem allocate_deallocate_roundtrip_witness :
    (deallocate (allocate (mkAllocator 1024) 100).2 (some 32)).blocks =
      (mkAllocator 1024).blocks ∧
    (deallocate (allocate (mkAllocator 1024) 100).2
      (some 32)).free_list.Perm (mkAllocator 1024).free_list ∧
    totalFreeBytes (deallocate (allocate (mkAllocator 1024) 100).2
      (some 32)) = totalFreeBytes (mkAllocator 1024) :=
  allocate_deallocate_roundtrip (mkAllocator 1024) 100 32 (by decide)
    (by decide) (by decide)

/-! Memory safety of the deallocate reads. -/

/-- The header addresses Allocator::deallocate dereferences (src/main.cpp
lines 162-188): the freed block's own header at ptr minus the header size
(line 163); the physically next header at address + size, read only when
that address is strictly below the pool end (line 171, the short-circuit
of the && mirrors the if here); and the headers of the free-list nodes
visited by the left-coalesce scan, which runs on the free list left after
the right-coalesce (lines 179-188). -/
def deallocateReadAddrs (st : Allocator) (p : Option Nat) : List Nat :=
  match p with
  | none => []
  | some ptr =>
    let a := ptr - headerSize
    let nextA := a + sizeAt st a
    let guarded := if nextA < st.pool_size then [nextA] else []
    a :: (guarded ++ (rightCoalesce st a).free_list)

/-- C10: in an invariant state, deallocating a valid pointer reads headers
only at addresses whose full header lies inside the pool: the read of the
physically next header happens only when its address is strictly below
pool_size, so freeing the physically last block of the pool never reads at
or beyond the pool end, and under the partition invariant every address
read is a block start with its header inside the pool. -/
theorem deallocate_reads_in_pool (st : Allocator) (p : Nat)
    (hI : Inv st) (hvp : validPtr st p) :
    ∀ r ∈ deallocateReadAddrs st (some p),
      r + headerSize ≤ st.pool_size := by
  obtain ⟨b, hbmem, hbfree, hp⟩ := hvp
  subst hp
  obtain ⟨hI1, hps1, -⟩ := rightCoalesce_stage st hI b hbmem hbfree
  have hT := hI.1.1
  have hsz : sizeAt st b.addr = b.size := sizeAt_of_tiled hT hbmem
  have hH : headerSize = 32 := rfl
  have hb := tilesFrom_bounds _ _ _ hT b hbmem
  intro r hr
  simp only [deallocateReadAddrs, Nat.add_sub_cancel] at hr
  rcases List.mem_cons.mp hr with hr | hr
  · subst hr
    omega
  rcases List.mem_append.mp hr with hr | hr
  · rw [hsz] at hr
    by_cases hlt : b.addr + b.size < st.pool_size
    · rw [if_pos hlt] at hr
      simp only [List.mem_singleton] at hr
      subst hr
      obtain ⟨u, v, hbs, hu, hv⟩ :=
        tilesFrom_decomp st.blocks 0 st.pool_size b hT hbmem
      cases v with
      | nil =>
        exfalso
        have hend : b.addr + b.size = st.pool_size := hv
        omega
      | cons c v1 =>
        have hcaddr : c.addr = b.addr + b.size := hv.1
        have hcmem : c ∈ st.blocks := by
          rw [hbs]
          exact List.mem_append_right _
            (List.mem_cons_of_mem _ (List.mem_cons_self _ _))
        have hcb := tilesFrom_bounds _ _ _ hT c hcmem
        omega
    · rw [if_neg hlt] at hr
      simp at hr
  · obtain ⟨d, hdmem, hdaddr, -⟩ := hI1.1.2.2.1 r hr
    have hT1 := hI1.1.1
    have hdb := tilesFrom_bounds _ _ _ hT1 d hdmem
    omega

theorem deallocate_reads_in_pool_witness :
    0 + headerSize ≤ (allocate (mkAllocator 1024) 100).2.pool_size :=
  deallocate_reads_in_pool (allocate (mkAllocator 1024) 100).2 32
    (by decide) (by decide) 0 (by decide)

/-! The splitting policy of allocate, in its amended form: the strict
comparison of src/main.cpp line 118 splits only when the leftover is
strictly larger than one header. -/

/-- C1 (amended): when allocate(n), n positive, succeeds in a well formed
state by selecting the free block b (the returned pointer is the byte
after b's header), the block is split exactly when the leftover
b.size - (n + headerSize) is strictly larger than one header (line 118 of
src/main.cpp compares with strict greater-than): the low part becomes the
allocated block of exactly n + headerSize bytes, the high part becomes a
new free block of the remaining bytes standing in the original block's
place in the free list (same position, hence the same neighbors); when the
leftover is at most one header, the whole block of b.size bytes is handed
out unsplit and removed from the free list. -/
theorem allocate_split_policy (st : Allocator) (n p : Nat) (hWF : WF st)
    (hn : 0 < n) (hp : (allocate st n).1 = some p) :
    ∃ b u v, st.blocks = u ++ b :: v ∧ b.is_free = true ∧
      p = b.addr + headerSize ∧ n + headerSize ≤ b.size ∧
      ((n + headerSize + headerSize < b.size →
        (allocate st n).2.blocks =
          u ++ ⟨b.addr, n + headerSize, false⟩ ::
            ⟨b.addr + (n + headerSize), b.size - (n + headerSize), true⟩ :: v ∧
        (allocate st n).2.free_list =
          st.free_list.map
            (fun x => if x = b.addr then b.addr + (n + headerSize) else x)) ∧
       (b.size ≤ n + headerSize + headerSize →
        (allocate st n).2.blocks = u ++ ⟨b.addr, b.size, false⟩ :: v ∧
        (allocate st n).2.free_list = st.free_list.erase b.addr)) := by
  have hT := hWF.1
  have hMF := hWF.2.2.1
  have hn' : n ≠ 0 := Nat.pos_iff_ne_zero.mp hn
  have hall : allocate st n = allocLoop st (n + headerSize) st.free_list := by
    simp only [allocate, if_neg hn']
  rcases allocLoop_cases st (n + headerSize) st.free_list with
    h | ⟨a, ha, hfit, hc⟩
  · rw [hall, h] at hp
    exact absurd hp (by simp)
  obtain ⟨b, hbmem, hbaddr, hbfree⟩ := hMF a ha
  subst hbaddr
  have hsz : sizeAt st b.addr = b.size := sizeAt_of_tiled hT hbmem
  rw [hsz] at hfit hc
  obtain ⟨u, v, hbs, hu, hv⟩ :=
    tilesFrom_decomp st.blocks 0 st.pool_size b hT hbmem
  have hune : ∀ x ∈ u, x.addr ≠ b.addr := fun x hx =>
    Nat.ne_of_lt (addr_lt_of_mem_left hu hx)
  rcases hc with ⟨hsplit, heq⟩ | ⟨hle, heq⟩
  · have hpv : p = b.addr + headerSize := by
      rw [hall, heq] at hp
      have h2 := hp
      simp only [Option.some.injEq] at h2
      exact h2.symm
    refine ⟨b, u, v, hbs, hbfree, hpv, hfit, ?_, ?_⟩
    · intro hcond
      constructor
      · rw [hall, heq]
        dsimp only
        rw [hbs]
        exact splitBlockAt_eval hune rfl
      · rw [hall, heq]
    · intro hcond
      exact absurd hsplit (by omega)
  · have hpv : p = b.addr + headerSize := by
      rw [hall, heq] at hp
      have h2 := hp
      simp only [Option.some.injEq] at h2
      exact h2.symm
    refine ⟨b, u, v, hbs, hbfree, hpv, hfit, ?_, ?_⟩
    · intro hcond
      exact absurd hcond (by omega)
    · intro hcond
      constructor
      · rw [hall, heq]
        dsimp only
        rw [hbs]
        exact markAllocatedAt_eval hune rfl
      · rw [hall, heq]
        exact rfl

theorem allocate_split_policy_witness :
    ∃ b u v, (mkAllocator 1024).blocks = u ++ b :: v ∧
      b.is_free = true ∧
      32 = b.addr + headerSize ∧ 100 + headerSize ≤ b.size ∧
      ((100 + headerSize + headerSize < b.size →
        (allocate (mkAllocator 1024) 100).2.blocks =
          u ++ ⟨b.addr, 100 + headerSize, false⟩ ::
            ⟨b.addr + (100 + headerSize),
              b.size - (100 + headerSize), true⟩ :: v ∧
        (allocate (mkAllocator 1024) 100).2.free_list =
          (mkAllocator 1024).free_list.map
            (fun x => if x = b.addr
              then b.addr + (100 + headerSize) else x)) ∧
       (b.size ≤ 100 + headerSize + headerSize →
        (allocate (mkAllocator 1024) 100).2.blocks =
          u ++ ⟨b.addr, b.size, false⟩ :: v ∧
        (allocate (mkAllocator 1024) 100).2.free_list =
          (mkAllocator 1024).free_list.erase b.addr)) :=
  allocate_split_policy (mkAllocator 1024) 100 32 (by decide) (by decide)
    (by decide)

/-! Basic facts about the allocate search loop. -/

theorem allocLoop_not_found (st : Allocator) (total : Nat) :
    ∀ l : List Nat, (∀ a ∈ l, sizeAt st a < total) →
      allocLoop st total l = (none, st)
  | [], _ => rfl
  | a :: rest, h => by
    have ha : ¬ total ≤ sizeAt st a :=
      Nat.not_le.mpr (h a (List.mem_cons_self a rest))
    simp only [allocLoop, if_neg ha]
    exact allocLoop_not_found st total rest
      (fun x hx => h x (List.mem_cons_of_mem a hx))

theorem allocLoop_first_fit (st : Allocator) (total : Nat) :
    ∀ (l : List Nat) (p : Nat),
      ((allocLoop st total l).1 = some p ↔
        ∃ u a v, l = u ++ a :: v ∧ (∀ x ∈ u, sizeAt st x < total) ∧
          total ≤ sizeAt st a ∧ p = a + headerSize)
  | [], p => by
    constructor
    · intro h
      simp [allocLoop] at h
    · rintro ⟨u, a, v, hl, -, -, -⟩
      exact absurd hl (by simp)
  | b :: rest, p => by
    by_cases hb : total ≤ sizeAt st b
    · have hres : (allocLoop st total (b :: rest)).1 = some (b + headerSize) := by
        simp only [allocLoop, if_pos hb]
        split <;> rfl
      rw [hres]
      constructor
      · intro h
        refine ⟨[], b, rest, rfl, by simp, hb, ?_⟩
        exact (Option.some_injective _ h).symm
      · rintro ⟨u, a, v, hl, hu, ha, hp⟩
        cases u with
        | nil =>
          simp only [List.nil_append, List.cons.injEq] at hl
          simp [hp, hl.1]
        | cons x u' =>
          simp only [List.cons_append, List.cons.injEq] at hl
          exact absurd hb (Nat.not_le.mpr (hl.1 ▸ hu x (by simp)))
    · have hres : allocLoop st total (b :: rest) = allocLoop st total rest := by
        simp only [allocLoop, if_neg hb]
      rw [hres, allocLoop_first_fit st total rest p]
      constructor
      · rintro ⟨u, a, v, hl, hu, ha, hp⟩
        exact ⟨b :: u, a, v, by simp [hl], by
          intro x hx
          rcases List.mem_cons.mp hx with h | h
          · exact h ▸ Nat.not_le.mp hb
          · exact hu x h, ha, hp⟩
      · rintro ⟨u, a, v, hl, hu, ha, hp⟩
        cases u with
        | nil =>
          simp only [List.nil_append, List.cons.injEq] at hl
          exact absurd (hl.1 ▸ ha) hb
        | cons x u' =>
          simp only [List.cons_append, List.cons.injEq] at hl
          exact ⟨u', a, v, hl.2, fun y hy => hu y (List.mem_cons_of_mem x hy),
            ha, hp⟩

/-! Claim theorems for the directly computable claims. -/

/-- C9: in every allocator state, allocate(0) returns the null result and
mutates no state, and deallocate(null) mutates no state and returns
normally (src/main.cpp lines 101-103 and 158-160). -/
theorem allocate_zero_and_deallocate_null_are_noops (st : Allocator) :
    allocate st 0 = (none, st) ∧ deallocate st none = st :=
  ⟨rfl, rfl⟩

/-- C8: constructing with a pool smaller than one header yields the inert
allocator (no pool, empty free list), and every subsequent allocate call,
for every requested size, fails by returning the null marker with the state
unchanged (src/main.cpp lines 31-37 and 107-154). -/
theorem small_pool_allocator_inert (pool_size n : Nat)
    (h : pool_size < headerSize) :
    mkAllocator pool_size =
      { pool_size := pool_size, blocks := [], free_list := [] } ∧
    allocate (mkAllocator pool_size) n = (none, mkAllocator pool_size) := by
  have h1 : mkAllocator pool_size =
      { pool_size := pool_size, blocks := [], free_list := [] } := by
    simp [mkAllocator, h]
  refine ⟨h1, ?_⟩
  by_cases hn : n = 0
  · simp [allocate, hn]
  · simp only [allocate, if_neg hn, h1]
    rfl

theorem small_pool_allocator_inert_witness :
    mkAllocator 7 = { pool_size := 7, blocks := [], free_list := [] } ∧
    allocate (mkAllocator 7) 5 = (none, mkAllocator 7) :=
  small_pool_allocator_inert 7 5 (by decide)

/-- C7: when no block on the free list is large enough for the request plus
its header, allocate returns the null marker and the allocator state is
exactly unchanged (src/main.cpp lines 111-154: the search commits nothing
before a candidate is found). -/
theorem allocate_out_of_memory_unchanged (st : Allocator) (n : Nat)
    (hn : 0 < n)
    (h : ∀ a ∈ st.free_list, sizeAt st a < n + headerSize) :
    allocate st n = (none, st) := by
  have hn' : n ≠ 0 := Nat.pos_iff_ne_zero.mp hn
  simp only [allocate, if_neg hn']
  exact allocLoop_not_found st (n + headerSize) st.free_list h

theorem allocate_out_of_memory_unchanged_witness :
    allocate (mkAllocator 64) 100 = (none, mkAllocator 64) :=
  allocate_out_of_memory_unchanged (mkAllocator 64) 100 (by decide)
    (by decide)

/-- C2: for a positive request the search is first-fit: the returned
pointer exists exactly when the free list, read in its current order,
contains a block of size at least request plus header, the block used is
the first such entry regardless of its address, and the pointer is the
first byte after that block's header (src/main.cpp lines 106-150). -/
theorem allocate_first_fit (st : Allocator) (n p : Nat) (hn : 0 < n) :
    ((allocate st n).1 = some p ↔
      ∃ u a v, st.free_list = u ++ a :: v ∧
        (∀ x ∈ u, sizeAt st x < n + headerSize) ∧
        n + headerSize ≤ sizeAt st a ∧ p = a + headerSize) := by
  have hn' : n ≠ 0 := Nat.pos_iff_ne_zero.mp hn
  simp only [allocate, if_neg hn']
  exact allocLoop_first_fit st (n + headerSize) st.free_list p

theorem allocate_first_fit_witness :
    (allocate (mkAllocator 1024) 100).1 = some 32 :=
  (allocate_first_fit (mkAllocator 1024) 100 32 (by decide)).mpr
    ⟨[], 0, [], rfl, by simp, by decide, by decide⟩

/-- C5: the concrete driver scenario on a 1024-byte pool: allocating 100,
200 and 50 bytes yields p1 = 32, p2 = 164, p3 = 396 and one remainder free
block; freeing p2 leaves exactly two free blocks; freeing p1 merges with
p2's freed extent into the single free block at address 0 of 364 bytes;
freeing p3 merges everything back into the initial state, a single free
block at address 0 of exactly 1024 bytes. -/
theorem demo_coalescing_scenario :
    demoR1.1 = some 32 ∧ demoR2.1 = some 164 ∧ demoR3.1 = some 396 ∧
    demoR3.2.free_list.length = 1 ∧
    demoSt4.free_list.length = 2 ∧
    demoSt5.free_list.length = 2 ∧
    (⟨0, 364, true⟩ : BlockHeader) ∈ demoSt5.blocks ∧
    demoSt6 = demoSt0 := by decide

/-- C1 counterexample: with a pool of 80 bytes (one free block of size 80),
allocate(16) needs 48 bytes, so the leftover is 80 - 48 = 32 = headerSize,
meeting the claim's split condition (leftover at least one header); yet the
code hands out the whole 80-byte block unsplit: the post state has a single
allocated block of size 80, no block of size 48, and an empty free list. -/
theorem split_boundary_counterexample :
    headerSize ≤ sizeAt (mkAllocator 80) 0 - (16 + headerSize) ∧
    (allocate (mkAllocator 80) 16).1 = some 32 ∧
    (allocate (mkAllocator 80) 16).2.blocks =
      [⟨0, 80, false⟩] ∧
    (allocate (mkAllocator 80) 16).2.free_list = [] ∧
    ¬ (∃ b ∈ (allocate (mkAllocator 80) 16).2.blocks,
        b.size = 16 + headerSize) := by decide

end PoolAlloc
